import Mathlib

/-!
Verification of the PDF-tables-to-JSON pipeline
(`pdf_tables_to_json_pipeline.py`, `process_pdfs.py`).

The development shallowly embeds the pipeline's pure core:

* the Markup Reducer `_remove_images_and_empty_divs` as a transformation on
  an HTML tree (`HNode`/`HForest`), modelling the BeautifulSoup operations
  `find_all("img")`, `find_all("div")`, `find_all("span")`, `decompose`,
  attribute deletion, `find_all(string=...)` and `.text`, including the
  error path of the `div` loop: `decompose` guts every tag of the removed
  subtree, and reading `.attrs` on a gutted tag falls back to `find` and
  yields `None`, so when a decomposed `div` contains another `div` the
  eagerly computed `find_all("div")` list makes the loop raise `TypeError`
  at `"class" in div.attrs` (the `img` and `span` loops touch only
  `decompose` and the `.text` property, which stay harmless on gutted
  tags, so those passes are clean removals);
* the response validators `save_response_as_json` / `save_response_as_yaml`,
  with `json.loads` / `json.dump(indent=4)` modelled by an executable
  recursive-descent parser and serializer over a JSON value type (numbers are
  modelled as integers; floats, `NaN`/`Infinity` literals and lone surrogate
  escapes are outside the modelled fragment), and `yaml.load` / `yaml.dump`
  modelled on the block-mapping fragment of YAML that the pipeline's
  repaired responses inhabit;
* the inference gateway `run_inference` up to the point where the network
  request is issued (the request itself is represented as a value);
* the per-document driver `process_single_pdf`, with the four raw model
  responses supplied as an environment (the LLM is an external collaborator).

All definitions are executable (structural or fuelled recursion, no
well-founded fixpoints), so closed statements evaluate by `rfl`/`decide`.
-/

/-! ## Character and string utilities (Python semantics) -/

/-- Characters treated as whitespace by Python's `str.strip()` (ASCII part). -/
def isPyWs (c : Char) : Bool :=
  c = ' ' || c = '\t' || c = '\n' || c = '\r' || c = '\x0b' || c = '\x0c'

/-- Whitespace characters recognised by Python's `json` scanner. -/
def isJsonWs (c : Char) : Bool :=
  c = ' ' || c = '\t' || c = '\n' || c = '\r'

/-- A character list is empty or all whitespace: exactly when Python's
`s.strip()` is falsy (`not s.strip()`). -/
def wsOnly (cs : List Char) : Bool := cs.all isPyWs

/-- The backtick character (0x60), written numerically. -/
def btChar : Char := Char.ofNat 96

/-- Strip every character of `set` from both ends of a list: the model of
Python's `str.strip(chars)`; `save_response_as_json` calls it with the set
consisting of the backtick only (`response.strip("...")` with a fence). -/
def pyStripChars (set : List Char) (cs : List Char) : List Char :=
  ((cs.dropWhile (fun c => set.contains c)).reverse.dropWhile
    (fun c => set.contains c)).reverse

/-- Strip from both ends every character satisfying `p`. -/
def stripEnds (p : Char → Bool) (cs : List Char) : List Char :=
  ((cs.dropWhile p).reverse.dropWhile p).reverse

/-- Fuelled worker for Python's `str.replace`: scan left to right, replacing
each non-overlapping occurrence of `pat` by `repl`.  The fuel is decremented
once per consumed character, so `cs.length` fuel always suffices. -/
def pyReplaceAux (pat repl : List Char) : Nat → List Char → List Char
  | _, [] => []
  | 0, cs => cs
  | fuel + 1, c :: rest =>
    if pat.isPrefixOf (c :: rest) then
      repl ++ pyReplaceAux pat repl fuel ((c :: rest).drop pat.length)
    else
      c :: pyReplaceAux pat repl fuel rest

/-- Model of Python's `str.replace(pat, repl)` on character lists
(for the nonempty patterns the pipeline uses). -/
def pyReplace (cs pat repl : List Char) : List Char :=
  pyReplaceAux pat repl cs.length cs

/-- Does `pat` occur as a contiguous sublist of `cs`? -/
def hasSub (pat : List Char) : List Char → Bool
  | [] => pat.isEmpty
  | c :: rest => pat.isPrefixOf (c :: rest) || hasSub pat rest

/-! ## The HTML tree model

`HNode`/`HForest` model the BeautifulSoup DOM fragment handed to
`_remove_images_and_empty_divs`: an element with a tag name, an attribute
list, and children, or a `NavigableString` text node. -/

mutual
inductive HNode where
  | text : List Char → HNode
  | elem : String → List (String × String) → HForest → HNode
inductive HForest where
  | nil : HForest
  | cons : HNode → HForest → HForest
end

mutual
/-- Concatenated text content of a node: BeautifulSoup's `.text`
(`get_text()` with no separator). -/
def textN : HNode → List Char
  | .text s => s
  | .elem _ _ cs => textF cs
/-- Concatenated text content of a forest. -/
def textF : HForest → List Char
  | .nil => []
  | .cons n ns => textN n ++ textF ns
end

mutual
/-- Does the subtree contain any text node at all?  This is
`div.find_all(string=lambda text: isinstance(text, NavigableString))`
being nonempty (every string is a `NavigableString`, so whitespace-only
text nodes count). -/
def hasStringN : HNode → Bool
  | .text _ => true
  | .elem _ _ cs => hasStringF cs
/-- Forest version of `hasStringN`. -/
def hasStringF : HForest → Bool
  | .nil => false
  | .cons n ns => hasStringN n || hasStringF ns
end

mutual
/-- Number of `img` elements in a node (the node itself included). -/
def imgCountN : HNode → Nat
  | .text _ => 0
  | .elem tag _ cs => (if tag = "img" then 1 else 0) + imgCountF cs
/-- Number of `img` elements in a forest. -/
def imgCountF : HForest → Nat
  | .nil => 0
  | .cons n ns => imgCountN n + imgCountF ns
end

mutual
/-- First pass of `_remove_images_and_empty_divs`: decompose every `img`
found by `div_element.find_all("img")` (all descendants, any depth). -/
def imgStep : HNode → Option HNode
  | .text s => some (.text s)
  | .elem tag attrs cs =>
    if tag = "img" then none else some (.elem tag attrs (imgL cs))
/-- `imgStep` mapped over a forest, dropping removed nodes. -/
def imgL : HForest → HForest
  | .nil => .nil
  | .cons n ns =>
    match imgStep n with
    | none => imgL ns
    | some m => .cons m (imgL ns)
end

/-- The Python exception the `div` pass raises when the eagerly computed
`find_all("div")` list hands it a `div` already destroyed by an ancestor's
`decompose`: `decompose` clears the tag's `__dict__`, so `div.attrs` falls
through `Tag.__getattr__` to `div.find("attrs")`, which is `None` on the
gutted tag, and `"class" in None` raises `TypeError`. -/
inductive PyError where
  | typeError : PyError
deriving DecidableEq

mutual
/-- Does the subtree contain a `div` element (the node itself included)? -/
def hasDivN : HNode → Bool
  | .text _ => false
  | .elem tag _ cs => tag = "div" || hasDivF cs
/-- Forest version of `hasDivN`. -/
def hasDivF : HForest → Bool
  | .nil => false
  | .cons n ns => hasDivN n || hasDivF ns
end

mutual
/-- Proof auxiliary for the `div` pass: the tree the pass builds on its
error-free path (`divStep` below, the model of the pass, returns `.ok`
values of exactly this shape).  This function is not itself a model of the
source loop — the loop raises `TypeError` on inputs where a decomposed
`div` contains another `div` (see `divStep`). -/
def divStepOk : HNode → Option HNode
  | .text s => some (.text s)
  | .elem tag attrs cs =>
    if tag = "div" then
      if ¬ hasStringF cs then none
      else if wsOnly (textF cs) then none
      else some (.elem tag (attrs.filter (fun p => p.1 ≠ "class")) (divLOk cs))
    else some (.elem tag attrs (divLOk cs))
/-- `divStepOk` mapped over a forest, dropping removed nodes
(proof auxiliary, like `divStepOk`). -/
def divLOk : HForest → HForest
  | .nil => .nil
  | .cons n ns =>
    match divStepOk n with
    | none => divLOk ns
    | some m => .cons m (divLOk ns)
end

mutual
/-- Second pass of `_remove_images_and_empty_divs`, acting on each `div` of
`div_element.find_all("div")` in document (pre)order: delete its `class`
attribute, then `decompose` it if it has no `NavigableString` descendant or
if its `.text` strips to empty.  The source iterates over the eagerly
computed `find_all` list (pre-order, ancestors first) while mutating the
document.  When a decomposed `div` contains another `div`, that inner `div`
is still on the list; the loop reaches it gutted and its first statement
`"class" in div.attrs` raises `TypeError` (see `PyError`), before any later
element of the list is processed.  When it does not, the removal of the
disjoint earlier subtrees cannot affect a later `div`'s turn, so the pass
is this pre-order recursion with the error path explicit. -/
def divStep : HNode → Except PyError (Option HNode)
  | .text s => .ok (some (.text s))
  | .elem tag attrs cs =>
    if tag = "div" then
      if ¬ hasStringF cs then
        if hasDivF cs then .error .typeError else .ok none
      else if wsOnly (textF cs) then
        if hasDivF cs then .error .typeError else .ok none
      else
        match divL cs with
        | .error e => .error e
        | .ok cs2 =>
          .ok (some (.elem tag (attrs.filter (fun p => p.1 ≠ "class")) cs2))
    else
      match divL cs with
      | .error e => .error e
      | .ok cs2 => .ok (some (.elem tag attrs cs2))
/-- `divStep` over a forest in document order, dropping removed nodes and
propagating the first `TypeError`. -/
def divL : HForest → Except PyError HForest
  | .nil => .ok .nil
  | .cons n ns =>
    match divStep n with
    | .error e => .error e
    | .ok none => divL ns
    | .ok (some m) =>
      match divL ns with
      | .error e => .error e
      | .ok ms => .ok (.cons m ms)
end

mutual
/-- Third pass of `_remove_images_and_empty_divs`: decompose every `span`
whose `.text` strips to empty.  Unlike the `div` pass, this loop touches
only `span.text`; `text` is a class property (`get_text`), so on a `span`
already gutted by an enclosing `decompose` it returns `""` and the loop
merely decomposes the dead tag again, which has no further effect on the
document — the pass is a clean pre-order recursion. -/
def spanStep : HNode → Option HNode
  | .text s => some (.text s)
  | .elem tag attrs cs =>
    if tag = "span" then
      if wsOnly (textF cs) then none
      else some (.elem tag attrs (spanL cs))
    else some (.elem tag attrs (spanL cs))
/-- `spanStep` mapped over a forest, dropping removed nodes. -/
def spanL : HForest → HForest
  | .nil => .nil
  | .cons n ns =>
    match spanStep n with
    | none => spanL ns
    | some m => .cons m (spanL ns)
end

/-- Model of `PdfToJsonPipeline._remove_images_and_empty_divs`: remove all
images, then run the `div` pass (which either removes every `div` without
non-whitespace text, deleting `class` attributes from the survivors, or
raises `TypeError` when a removed `div` contained another `div`), then
remove all whitespace-only `span`s, and return the same (mutated) page
element.  All three `find_all` calls of the source search strict
descendants only, so the page element itself is never removed and keeps
its own attributes. -/
def _remove_images_and_empty_divs : HNode → Except PyError HNode
  | .text s => .ok (.text s)
  | .elem tag attrs cs =>
    match divL (imgL cs) with
    | .error e => .error e
    | .ok cs2 => .ok (.elem tag attrs (spanL cs2))

mutual
/-- Every `div` in the tree (the node itself included) has non-whitespace
text content. -/
def divsNonEmptyN : HNode → Bool
  | .text _ => true
  | .elem tag _ cs =>
    (if tag = "div" then ¬ wsOnly (textF cs) else true) && divsNonEmptyF cs
/-- Forest version of `divsNonEmptyN`. -/
def divsNonEmptyF : HForest → Bool
  | .nil => true
  | .cons n ns => divsNonEmptyN n && divsNonEmptyF ns
end

mutual
/-- Every `div` in the tree has non-whitespace text and no `class`
attribute: the invariant making the `div` pass a no-op. -/
def divCleanN : HNode → Bool
  | .text _ => true
  | .elem tag attrs cs =>
    (if tag = "div" then
      (¬ wsOnly (textF cs)) && attrs.all (fun p => p.1 ≠ "class")
     else true) && divCleanF cs
/-- Forest version of `divCleanN`. -/
def divCleanF : HForest → Bool
  | .nil => true
  | .cons n ns => divCleanN n && divCleanF ns
end

mutual
/-- Every `span` in the tree has non-whitespace text: the invariant making
the `span` pass a no-op. -/
def spanCleanN : HNode → Bool
  | .text _ => true
  | .elem tag _ cs =>
    (if tag = "span" then ¬ wsOnly (textF cs) else true) && spanCleanF cs
/-- Forest version of `spanCleanN`. -/
def spanCleanF : HForest → Bool
  | .nil => true
  | .cons n ns => spanCleanN n && spanCleanF ns
end

/-- Is the node itself an `img` element?  `find_all` never matches the
element it is called on, so an `img` root is outside the function's
contract (the pipeline only ever passes page `div`s). -/
def isImgRoot : HNode → Bool
  | .text _ => false
  | .elem tag _ _ => tag = "img"

/-! ## JSON values

Model of the Python `json` module on the fragment the pipeline exercises:
objects, arrays, double-quoted strings with the standard escapes
(including `\uXXXX` and surrogate pairs), integers, `true`/`false`/`null`.
Floats, the `NaN`/`Infinity` literals and lone-surrogate escapes are
outside the modelled fragment. -/

mutual
inductive JVal where
  | null : JVal
  | bool : Bool → JVal
  | num : Int → JVal
  | str : List Char → JVal
  | arr : JArr → JVal
  | obj : JObj → JVal
inductive JArr where
  | anil : JArr
  | acons : JVal → JArr → JArr
inductive JObj where
  | onil : JObj
  | ocons : List Char → JVal → JObj → JObj
end

/-- Decimal digit character for `n < 10`. -/
def digitChar (n : Nat) : Char := Char.ofNat (48 + n)

/-- Numeric value of a decimal digit character. -/
def digitVal (c : Char) : Nat := c.toNat - 48

/-- Value of the decimal digit string `ds` (most significant first). -/
def digitsToNat (ds : List Char) : Nat :=
  ds.foldl (fun acc c => 10 * acc + digitVal c) 0

/-- Fuelled decimal rendering of a natural number (`n < fuel` suffices;
most significant digit first, no leading zeros except for `0` itself). -/
def natToDigits : Nat → Nat → List Char
  | 0, _ => []
  | fuel + 1, n =>
    if n < 10 then [digitChar n]
    else natToDigits fuel (n / 10) ++ [digitChar (n % 10)]

/-- Decimal rendering of a natural number (Python `repr`). -/
def natRepr (n : Nat) : List Char := natToDigits (n + 1) n

/-- Python `repr` of an integer, as produced by `json.dump`. -/
def intRepr (n : Int) : List Char :=
  if n < 0 then '-' :: natRepr n.natAbs else natRepr n.toNat

/-- Lowercase hexadecimal digit character for `n < 16`. -/
def hexDigitChar (n : Nat) : Char :=
  if n < 10 then Char.ofNat (48 + n) else Char.ofNat (87 + n)

/-- Numeric value of a hexadecimal digit character (either case), if any. -/
def hexVal (c : Char) : Option Nat :=
  if 48 ≤ c.toNat && c.toNat ≤ 57 then some (c.toNat - 48)
  else if 97 ≤ c.toNat && c.toNat ≤ 102 then some (c.toNat - 87)
  else if 65 ≤ c.toNat && c.toNat ≤ 70 then some (c.toNat - 55)
  else none

/-- Value of a four-hex-digit group `\uXXXX`. -/
def hex4 (a b c d : Nat) : Nat := a * 4096 + b * 256 + c * 16 + d

/-- The six-character escape `\uXXXX` of a code unit `n < 0x10000`
(lowercase hex, as Python's `json.encoder` emits). -/
def uEsc (n : Nat) : List Char :=
  ['\\', 'u', hexDigitChar (n / 4096 % 16), hexDigitChar (n / 256 % 16),
   hexDigitChar (n / 16 % 16), hexDigitChar (n % 16)]

/-- Escape of one character inside a JSON string, following
`json.encoder.py_encode_basestring_ascii` (`ensure_ascii=True`, the
`json.dump` default): `"` and `\` and the five short control escapes get
two-character forms; any other character outside printable ASCII is written
`\uXXXX`, with a surrogate pair above `0xFFFF`. -/
def escChar (c : Char) : List Char :=
  if c = '"' then ['\\', '"']
  else if c = '\\' then ['\\', '\\']
  else if c = '\x08' then ['\\', 'b']
  else if c = '\x0c' then ['\\', 'f']
  else if c = '\n' then ['\\', 'n']
  else if c = '\r' then ['\\', 'r']
  else if c = '\t' then ['\\', 't']
  else if c.toNat < 0x20 || 0x7e < c.toNat then
    if c.toNat < 0x10000 then uEsc c.toNat
    else uEsc (0xD800 + (c.toNat - 0x10000) / 0x400) ++
         uEsc (0xDC00 + (c.toNat - 0x10000) % 0x400)
  else [c]

/-- Escape of a whole string body (no surrounding quotes). -/
def escList : List Char → List Char
  | [] => []
  | c :: cs => escChar c ++ escList cs

/-- Serialized JSON string, quotes included. -/
def serStr (s : List Char) : List Char := '"' :: escList s ++ ['"']

/-- The left and right curly brace characters, written numerically. -/
def lbr : Char := Char.ofNat 123

/-- Right curly brace. -/
def rbr : Char := Char.ofNat 125

/-- Indentation of `json.dump(..., indent=4)` at nesting level `lvl`. -/
def indentPad (lvl : Nat) : List Char := List.replicate (4 * lvl) ' '

mutual
/-- Serializer modelling `json.dump(value, file, indent=4)`: with an indent,
Python uses item separator `","` + newline + indent and key separator
`": "`; empty containers are written inline. -/
def serVal (lvl : Nat) : JVal → List Char
  | .null => "null".data
  | .bool true => "true".data
  | .bool false => "false".data
  | .num n => intRepr n
  | .str s => serStr s
  | .arr xs =>
    match xs with
    | .anil => ['[', ']']
    | ys =>
      '[' :: '\n' :: (indentPad (lvl + 1) ++ serItems (lvl + 1) ys ++
        '\n' :: (indentPad lvl ++ [']']))
  | .obj ms =>
    match ms with
    | .onil => [lbr, rbr]
    | ns =>
      lbr :: '\n' :: (indentPad (lvl + 1) ++ serMembers (lvl + 1) ns ++
        '\n' :: (indentPad lvl ++ [rbr]))
/-- Array items, separated by `",\n" ++ indent`. -/
def serItems (lvl : Nat) : JArr → List Char
  | .anil => []
  | .acons v .anil => serVal lvl v
  | .acons v (.acons w rest) =>
    serVal lvl v ++ ',' :: '\n' ::
      (indentPad lvl ++ serItems lvl (.acons w rest))
/-- Object members `"key": value`, separated by `",\n" ++ indent`. -/
def serMembers (lvl : Nat) : JObj → List Char
  | .onil => []
  | .ocons k v .onil => serStr k ++ ':' :: ' ' :: serVal lvl v
  | .ocons k v (.ocons k2 w rest) =>
    (serStr k ++ ':' :: ' ' :: serVal lvl v) ++ ',' :: '\n' ::
      (indentPad lvl ++ serMembers lvl (.ocons k2 w rest))
end

mutual
/-- Fuel needed by `pValue` to parse a serialization of the value. -/
def jfuel : JVal → Nat
  | .arr xs => 1 + afuel xs
  | .obj ms => 1 + ofuel ms
  | _ => 1
/-- Fuel needed by `pItems`. -/
def afuel : JArr → Nat
  | .anil => 1
  | .acons v rest => 1 + jfuel v + afuel rest
/-- Fuel needed by `pMembers`. -/
def ofuel : JObj → Nat
  | .onil => 1
  | .ocons _ v rest => 1 + jfuel v + ofuel rest
end

/-- Decoding of a two-character escape `\\x`, following the `BACKSLASH`
table of `json.decoder`. -/
def shortUnescape (e : Char) : Option Char :=
  if e = '"' then some '"'
  else if e = '\\' then some '\\'
  else if e = '/' then some '/'
  else if e = 'b' then some '\x08'
  else if e = 'f' then some '\x0c'
  else if e = 'n' then some '\n'
  else if e = 'r' then some '\r'
  else if e = 't' then some '\t'
  else none

mutual
/-- Parser for the body of a JSON string, the opening quote already
consumed; models `json.scanner`'s `py_scanstring` with `strict=True`
(raw control characters are rejected), decoding `\uXXXX` escapes and
surrogate pairs.  Lone surrogates (which CPython would keep as unpaired
code units) are outside the modelled fragment and rejected. -/
def pString : List Char → Except Unit (List Char × List Char)
  | [] => .error ()
  | c :: rest =>
    if c = '"' then .ok ([], rest)
    else if c = '\\' then pEscape rest
    else if c.toNat < 0x20 then .error ()
    else
      match pString rest with
      | .ok (s, r) => .ok (c :: s, r)
      | .error u => .error u
/-- Parser for the part of an escape after the backslash. -/
def pEscape : List Char → Except Unit (List Char × List Char)
  | [] => .error ()
  | 'u' :: rest2 =>
    match rest2 with
    | a :: b :: c2 :: d :: rest3 =>
      match hexVal a, hexVal b, hexVal c2, hexVal d with
      | some ha, some hb, some hc, some hd =>
        let n := hex4 ha hb hc hd
        if n < 0xD800 || 0xE000 ≤ n then
          match pString rest3 with
          | .ok (s, r) => .ok (Char.ofNat n :: s, r)
          | .error u => .error u
        else if n < 0xDC00 then pLowSurrogate n rest3
        else .error ()
      | _, _, _, _ => .error ()
    | _ => .error ()
  | e :: rest2 =>
    match shortUnescape e with
    | some ch =>
      match pString rest2 with
      | .ok (s, r) => .ok (ch :: s, r)
      | .error u => .error u
    | none => .error ()
/-- Parser for the low half of a surrogate pair (`n` is the high half). -/
def pLowSurrogate (n : Nat) : List Char → Except Unit (List Char × List Char)
  | '\\' :: 'u' :: a :: b :: c2 :: d :: rest4 =>
    match hexVal a, hexVal b, hexVal c2, hexVal d with
    | some ha, some hb, some hc, some hd =>
      let m := hex4 ha hb hc hd
      if 0xDC00 ≤ m && m < 0xE000 then
        match pString rest4 with
        | .ok (s, r) =>
          .ok (Char.ofNat (0x10000 + (n - 0xD800) * 0x400 + (m - 0xDC00))
            :: s, r)
        | .error u => .error u
      else .error ()
    | _, _, _, _ => .error ()
  | _ => .error ()
end

/-- Parser for a JSON number at the head of the input.  The modelled
fragment is (optionally signed) decimal integers: a fraction, exponent or
`Infinity`/`NaN` literal, which CPython would accept as a float, is not
modelled. -/
def pNumber (cs : List Char) : Except Unit (Int × List Char) :=
  match cs with
  | [] => .error ()
  | c :: rest =>
    if c = '-' then
      let ds := rest.takeWhile Char.isDigit
      if ds.isEmpty then .error ()
      else .ok (-(digitsToNat ds : Int), rest.dropWhile Char.isDigit)
    else
      let ds := (c :: rest).takeWhile Char.isDigit
      if ds.isEmpty then .error ()
      else .ok ((digitsToNat ds : Int), (c :: rest).dropWhile Char.isDigit)

mutual
/-- Fuelled recursive-descent parser for one JSON value, modelling
`json.scanner.py_make_scanner`: skip whitespace, then dispatch on the first
character.  Fuel `2 * length + 2` always suffices (each unit of fuel
consumed corresponds to at least one consumed input character). -/
def pValue : Nat → List Char → Except Unit (JVal × List Char)
  | 0, _ => .error ()
  | fuel + 1, cs =>
    match cs.dropWhile isJsonWs with
    | [] => .error ()
    | c :: rest =>
      if c = '"' then
        match pString rest with
        | .ok (s, r) => .ok (.str s, r)
        | .error u => .error u
      else if c = '[' then
        match rest.dropWhile isJsonWs with
        | ']' :: r2 => .ok (.arr .anil, r2)
        | cs2 =>
          match pItems fuel cs2 with
          | .ok (xs, r) => .ok (.arr xs, r)
          | .error u => .error u
      else if c = lbr then
        match rest.dropWhile isJsonWs with
        | x :: r2 =>
          if x = rbr then .ok (.obj .onil, r2)
          else
            match pMembers fuel (x :: r2) with
            | .ok (ms, r) => .ok (.obj ms, r)
            | .error u => .error u
        | [] => .error ()
      else if c = 't' then
        match rest with
        | 'r' :: 'u' :: 'e' :: r => .ok (.bool true, r)
        | _ => .error ()
      else if c = 'f' then
        match rest with
        | 'a' :: 'l' :: 's' :: 'e' :: r => .ok (.bool false, r)
        | _ => .error ()
      else if c = 'n' then
        match rest with
        | 'u' :: 'l' :: 'l' :: r => .ok (.null, r)
        | _ => .error ()
      else if c = '-' || c.isDigit then
        match pNumber (c :: rest) with
        | .ok (n, r) => .ok (.num n, r)
        | .error u => .error u
      else .error ()
/-- Items of a nonempty JSON array (opening bracket and leading whitespace
already consumed). -/
def pItems : Nat → List Char → Except Unit (JArr × List Char)
  | 0, _ => .error ()
  | fuel + 1, cs =>
    match pValue fuel cs with
    | .error u => .error u
    | .ok (v, r1) =>
      match r1.dropWhile isJsonWs with
      | ',' :: r2 =>
        match pItems fuel r2 with
        | .ok (xs, r) => .ok (.acons v xs, r)
        | .error u => .error u
      | ']' :: r2 => .ok (.acons v .anil, r2)
      | _ => .error ()
/-- Members of a nonempty JSON object (opening brace already consumed). -/
def pMembers : Nat → List Char → Except Unit (JObj × List Char)
  | 0, _ => .error ()
  | fuel + 1, cs =>
    match cs.dropWhile isJsonWs with
    | '"' :: r0 =>
      match pString r0 with
      | .error u => .error u
      | .ok (k, r1) =>
        match r1.dropWhile isJsonWs with
        | ':' :: r2 =>
          match pValue fuel r2 with
          | .error u => .error u
          | .ok (v, r3) =>
            match r3.dropWhile isJsonWs with
            | ',' :: r4 =>
              match pMembers fuel r4 with
              | .ok (ms, r) => .ok (.ocons k v ms, r)
              | .error u => .error u
            | x :: r4 =>
              if x = rbr then .ok (.ocons k v .onil, r4)
              else .error ()
            | [] => .error ()
        | _ => .error ()
    | _ => .error ()
end

/-- Model of `json.loads`: the scanner skips whitespace before the value
and after it, then requires the end of the input; this is equivalent to
stripping whitespace at both ends and requiring the parse to consume
everything.  Fuel `2 * length + 2` is enough for any input the parser can
accept (proved for serialized values via `jfuel`). -/
def jsonLoadsL (cs : List Char) : Except Unit JVal :=
  let t := stripEnds isJsonWs cs
  match pValue (2 * t.length + 2) t with
  | .ok (v, rest) => if rest = [] then .ok v else .error ()
  | .error u => .error u

/-- `json.loads` on a Lean string. -/
def jsonLoads (s : String) : Except Unit JVal := jsonLoadsL s.data

/-- Top-level serialization written by `save_response_as_json`:
`json.dump(parsed_response, file, indent=4)`. -/
def jsonDumps4 (v : JVal) : List Char := serVal 0 v


/-! ## YAML fragment

`save_response_as_yaml` parses with `yaml.load(..., Loader=yaml.UnsafeLoader)`
and re-serializes with `yaml.dump`.  Full YAML is far outside what the
pipeline needs: after the bracket-repair pass, the expected responses are
flat block mappings `key: value` with plain or double-quoted scalar values.
The model covers exactly that fragment and rejects everything else
(pyyaml's behaviour outside the fragment — flow collections, nested
blocks, anchors, octal integers, comments — is not modelled). -/

/-- Scalar values of the YAML fragment: plain/quoted strings and
(non-negative decimal) integers. -/
inductive YVal where
  | str : List Char → YVal
  | int : Nat → YVal
deriving DecidableEq

/-- Characters allowed in a plain (unquoted) scalar of the fragment. -/
def plainCharOk (c : Char) : Bool :=
  c.isAlphanum || c = ' ' || c = ',' || c = '.' || c = '-' || c = '_'

/-- Characters allowed in a mapping key of the fragment. -/
def keyCharOk (c : Char) : Bool := c.isAlphanum || c = '_' || c = '-'

/-- A key in the modelled fragment: nonempty, leading letter, simple
characters only (so pyyaml reads it back as the same string). -/
def keySafe : List Char → Bool
  | [] => false
  | c :: rest => c.isAlpha && (c :: rest).all keyCharOk

/-- A value in the modelled fragment.  A plain string must start with a
letter (so pyyaml does not resolve it as a number or boolean), contain
only simple characters, and not end in a space (so pyyaml's
whitespace-trimming of plain scalars is a no-op). -/
def valSafe : YVal → Bool
  | .int _ => true
  | .str [] => false
  | .str (c :: rest) =>
    c.isAlpha && (c :: rest).all plainCharOk &&
      (match (c :: rest).getLast? with
       | some l => l ≠ ' '
       | none => false)

/-- An entry of the fragment. -/
def entrySafe (kv : List Char × YVal) : Bool := keySafe kv.1 && valSafe kv.2

/-- A document of the fragment: a nonempty mapping of safe entries. -/
def docSafe : List (List Char × YVal) → Bool
  | [] => false
  | d => d.all entrySafe

/-- Split a character list into lines at newline characters. -/
def splitLines : List Char → List (List Char)
  | [] => [[]]
  | c :: rest =>
    if c = '\n' then [] :: splitLines rest
    else
      match splitLines rest with
      | [] => [[c]]
      | l :: ls => (c :: l) :: ls

/-- Split a line at its first colon, returning the parts before and after. -/
def splitColon : List Char → Option (List Char × List Char)
  | [] => none
  | c :: rest =>
    if c = ':' then some ([], rest)
    else
      match splitColon rest with
      | none => none
      | some (a, b) => some (c :: a, b)

/-- Strip spaces from both ends (plain-scalar trimming). -/
def trimSpaces (cs : List Char) : List Char := stripEnds (fun c => c = ' ') cs

/-- Parse one scalar value of the fragment. -/
def parseScalarY (v : List Char) : Except Unit YVal :=
  match v with
  | [] => .error ()
  | c :: rest =>
    if c = '"' then
      match rest.reverse with
      | [] => .error ()
      | q :: bodyRev =>
        if q = '"' && bodyRev.reverse.all (fun ch => ch ≠ '"' && ch ≠ '\\')
        then .ok (.str bodyRev.reverse)
        else .error ()
    else if (c :: rest).all Char.isDigit then
      if c = '0' && rest ≠ [] then .error ()
      else .ok (.int (digitsToNat (c :: rest)))
    else if c.isAlpha && (c :: rest).all plainCharOk then
      .ok (.str (c :: rest))
    else .error ()

/-- Parse one line of the fragment: `none` for a blank line, otherwise a
`key: value` entry. -/
def parseLineY (line : List Char) : Except Unit (Option (List Char × YVal)) :=
  if wsOnly line then .ok none
  else
    match line with
    | [] => .error ()
    | c :: _ =>
      if isPyWs c then .error ()
      else
        match splitColon line with
        | none => .error ()
        | some (k, after) =>
          if keySafe k then
            match after with
            | sp :: vraw =>
              if sp = ' ' then
                match parseScalarY (trimSpaces vraw) with
                | .ok v => .ok (some (k, v))
                | .error u => .error u
              else .error ()
            | [] => .error ()
          else .error ()

/-- Parse all lines, skipping blanks. -/
def parseLinesY : List (List Char) → Except Unit (List (List Char × YVal))
  | [] => .ok []
  | l :: rest =>
    match parseLineY l with
    | .error u => .error u
    | .ok none => parseLinesY rest
    | .ok (some kv) =>
      match parseLinesY rest with
      | .ok kvs => .ok (kv :: kvs)
      | .error u => .error u

/-- Model of `yaml.load` on the fragment: the document must be a nonempty
flat block mapping. -/
def yamlLoadL (cs : List Char) : Except Unit (List (List Char × YVal)) :=
  match parseLinesY (splitLines cs) with
  | .ok [] => .error ()
  | .ok kvs => .ok kvs
  | .error u => .error u

/-- `yaml.load` on a Lean string. -/
def yamlLoad (s : String) : Except Unit (List (List Char × YVal)) :=
  yamlLoadL s.data

/-- Lexicographic comparison of keys by code point: the order
`sorted` / `yaml.dump(..., sort_keys=True)` uses on plain strings. -/
def lexLe : List Char → List Char → Bool
  | [], _ => true
  | _ :: _, [] => false
  | a :: as, b :: bs =>
    if a.toNat < b.toNat then true
    else if b.toNat < a.toNat then false
    else lexLe as bs

/-- Order on entries, by key. -/
def entryLe (x y : List Char × YVal) : Prop := lexLe x.1 y.1 = true

instance : DecidableRel entryLe :=
  fun x y => inferInstanceAs (Decidable (lexLe x.1 y.1 = true))

/-- `yaml.dump` sorts keys (`sort_keys=True` is the default). -/
def sortEntriesY (d : List (List Char × YVal)) : List (List Char × YVal) :=
  List.insertionSort entryLe d

/-- Plain rendering of one scalar (fragment values need no quoting). -/
def dumpScalarY : YVal → List Char
  | .int n => natRepr n
  | .str s => s

/-- One dumped mapping line `key: value` plus newline. -/
def dumpEntryY (kv : List Char × YVal) : List Char :=
  kv.1 ++ ':' :: ' ' :: (dumpScalarY kv.2 ++ ['\n'])

/-- Concatenation of dumped lines. -/
def joinDumpY : List (List Char × YVal) → List Char
  | [] => []
  | kv :: rest => dumpEntryY kv ++ joinDumpY rest

/-- Model of `yaml.dump(parsed_response, file)`: default flow style off for
flat scalar mappings, keys sorted. -/
def yamlDumpL (d : List (List Char × YVal)) : List Char :=
  joinDumpY (sortEntriesY d)

/-! ## Inference gateway -/

/-- The `response_format` sent with the chat-completion request. -/
inductive RespFormat where
  | json_object : RespFormat
  | text : RespFormat
deriving DecidableEq

/-- The parameters of the network request `run_inference` issues.  (The
message payload itself is built from the prompt and the prettified query;
it is orthogonal to the claims and not carried here.) -/
structure ChatRequest where
  model : String
  streaming : Bool
  response_format : RespFormat
deriving DecidableEq

/-- What `run_inference` does before/instead of touching the network:
either it raises `ValueError` (which in the source happens before the
`OpenAI(...)` client is constructed and before any request is sent), or it
reaches `client.chat.completions.create` with the given parameters. -/
inductive GatewayAction where
  | raiseValueError : String → GatewayAction
  | sendRequest : ChatRequest → GatewayAction
deriving DecidableEq

/-- Model of `PdfToJsonPipeline.run_inference` up to the network call:
the local-model guard runs first; with `json_mode` the request format is
`json_object` and the model `gpt-4` is replaced by `gpt-4-turbo-preview`
(printing a notice); without `json_mode` the format is `text` and the
model is passed through.  `query` and `prompt` only shape the message
payload, which is external to the claims. -/
def run_inference (api_endpoint : Option String) (query : String)
    (model : String) (streaming : Bool) (prompt : String)
    (json_mode : Bool) : GatewayAction :=
  if model = "local-model" && api_endpoint.isNone then
    .raiseValueError "API endpoint must be provided when using a local model."
  else
    let m := if json_mode then
        (if model = "gpt-4" then "gpt-4-turbo-preview" else model)
      else model
    let fmt := if json_mode then RespFormat.json_object else RespFormat.text
    .sendRequest ⟨m, streaming, fmt⟩

/-! ## Response validators and persistence -/

/-- A file written by a validator: its path and exact content. -/
structure SavedFile where
  path : String
  content : String
deriving DecidableEq

/-- The parsing stage of `save_response_as_json`: strip backtick characters
from both ends of the response (`response.strip` with a backtick fence
argument strips the character set, i.e. only backticks, not any format
tag), then `json.loads`. -/
def jsonParseStage (response : String) : Except Unit JVal :=
  jsonLoadsL (pyStripChars [btChar] response.data)

/-- Model of `save_response_as_json`: validate the cleaned response as
JSON; on failure raise `ValueError` before any file is opened; on success
write `json.dump(parsed, file, indent=4)` to
`output_directory/output_file_name.json`. -/
def save_response_as_json (response output_directory output_file_name : String) :
    Except String SavedFile :=
  match jsonParseStage response with
  | .error _ => .error "Failed to decode response as JSON"
  | .ok parsed =>
    .ok ⟨output_directory ++ "/" ++ output_file_name ++ ".json",
         String.mk (jsonDumps4 parsed)⟩

/-- The cleaning stage of `save_response_as_yaml`: remove every occurrence
of the tagged fence opener and of the bare fence, then rewrite every
bracket character to a double quote. -/
def yamlCleanStage (response : String) : List Char :=
  pyReplace
    (pyReplace
      (pyReplace (pyReplace response.data ("```yaml".data) []) ("```".data) [])
      ['['] ['"'])
    [']'] ['"']

/-- The parsing stage of `save_response_as_yaml`: clean, then `yaml.load`. -/
def yamlParseStage (response : String) : Except Unit (List (List Char × YVal)) :=
  yamlLoadL (yamlCleanStage response)

/-- Model of `save_response_as_yaml`: clean and validate the response as
YAML; on failure raise `ValueError` before any file is opened; on success
write `yaml.dump(parsed, file)` to `output_directory/output_file_name.yaml`. -/
def save_response_as_yaml (response output_directory output_file_name : String) :
    Except String SavedFile :=
  match yamlParseStage response with
  | .error _ => .error "Failed to decode response as YAML"
  | .ok parsed =>
    .ok ⟨output_directory ++ "/" ++ output_file_name ++ ".yaml",
         String.mk (yamlDumpL parsed)⟩

/-! ## The per-document driver -/

/-- The four raw model responses obtained for one document, one per
(source representation, target format) variant.  The LLM is an external
collaborator, so the responses are the driver's environment. -/
structure PdfResponses where
  html_tables_as_json : String
  text_tables_as_json : String
  html_tables_as_yaml : String
  text_tables_as_yaml : String

/-- Model of `ProcessPdfs.process_single_pdf` from the save step of the
first variant on: the four saves run in sequence with no exception
handler, so a `ValueError` raised by a validator propagates and ends the
whole method.  The result is the list of files actually written, in
order, together with the propagated error message, if any. -/
def process_single_pdf (resp : PdfResponses) (output_path file_name : String) :
    List SavedFile × Option String :=
  match save_response_as_json resp.html_tables_as_json output_path
      (file_name ++ "_whole") with
  | .error e => ([], some e)
  | .ok f1 =>
    match save_response_as_json resp.text_tables_as_json output_path
        (file_name ++ "_whole_text") with
    | .error e => ([f1], some e)
    | .ok f2 =>
      match save_response_as_yaml resp.html_tables_as_yaml output_path
          (file_name ++ "_whole") with
      | .error e => ([f1, f2], some e)
      | .ok f3 =>
        match save_response_as_yaml resp.text_tables_as_yaml output_path
            (file_name ++ "_whole_text") with
        | .error e => ([f1, f2, f3], some e)
        | .ok f4 => ([f1, f2, f3, f4], none)

/-! ## Concrete inputs for witnesses and counterexamples -/

/-- Spec scenario page:
`<div data-page-no="1"><img src="x"/><div></div><table><tr><td>A</td></tr></table></div>`. -/
def specScenarioPage : HNode :=
  .elem "div" [("data-page-no", "1")]
    (.cons (.elem "img" [("src", "x")] .nil)
      (.cons (.elem "div" [] .nil)
        (.cons (.elem "table" []
          (.cons (.elem "tr" []
            (.cons (.elem "td" [] (.cons (.text ['A']) .nil)) .nil)) .nil))
          .nil)))

/-- A page holding three nested empty containers. -/
def nestedEmptyPage : HNode :=
  .elem "div" [("data-page-no", "1")]
    (.cons (.elem "div" []
      (.cons (.elem "div" [] (.cons (.elem "div" [] .nil) .nil)) .nil)) .nil)

/-- The reduction of `specScenarioPage`: image and childless empty `div`
removed, table kept. -/
def specReducedPage : HNode :=
  .elem "div" [("data-page-no", "1")]
    (.cons (.elem "table" []
      (.cons (.elem "tr" []
        (.cons (.elem "td" [] (.cons (.text ['A']) .nil)) .nil)) .nil))
      .nil)

/-- A string-free child forest containing a `div`: the subtree of the
decomposed `div` that makes the loop crash. -/
def c4EmptyForest : HForest := .cons (.elem "div" [] .nil) .nil

/-- A triple-backtick fence. -/
def fence3 : String := String.mk [btChar, btChar, btChar]

/-- An untagged fenced wrapping of a payload (fence on its own lines). -/
def wrapUntagged (p : String) : String := fence3 ++ "\n" ++ p ++ "\n" ++ fence3

/-- A fenced wrapping tagged with the format name `json`. -/
def wrapTaggedJson (p : String) : String :=
  fence3 ++ "json\n" ++ p ++ "\n" ++ fence3

/-- The response payload of the spec scenario. -/
def c1Payload : String := "\x7b\"rows\": [[\"A\"]]\x7d"

/-- The record the spec scenario validates to. -/
def c1Record : JVal :=
  .obj (.ocons "rows".data
    (.arr (.acons (.arr (.acons (.str ['A']) .anil)) .anil)) .onil)

/-- A string contains no triple-backtick fence marker. -/
def noFenceMarker (s : String) : Bool := !hasSub "```".data s.data

/-- A string contains no bracket characters. -/
def noBrackets (s : String) : Bool :=
  s.data.all (fun c => c ≠ '[' && c ≠ ']')

/-- Rewriting every bracket character to a double quote, as a character map. -/
def bracketMap (cs : List Char) : List Char :=
  cs.map (fun c => if c = '[' || c = ']' then '"' else c)

/-- Responses for the `C2` counterexample: the first (HTML→JSON) variant is
invalid, every other variant is valid. -/
def c2Responses : PdfResponses :=
  ⟨"not json", "\x7b\"a\": 1\x7d", "key: value", "key2: other"⟩

/-- A tail is safe to follow a serialized number: it is empty or starts
with a non-digit (in a serialization, a value is followed by a separator,
whitespace or a closing bracket). -/
def restSafe (rest : List Char) : Prop :=
  ∀ c cs, rest = c :: cs → c.isDigit = false

/-- All characters are JSON whitespace. -/
def WsJ (l : List Char) : Prop := ∀ c ∈ l, isJsonWs c = true

/-- A parser call consumed a nonempty prefix `pre` of its input whose last
character is not a backtick (every token a JSON parse can end on — closing
quote, digit, closing bracket or brace, final letter of a literal — is a
non-backtick character).  This is what makes `str.strip` of the backtick
set unable to touch the tail of a valid payload. -/
def ConsumedEnd (cs r : List Char) : Prop :=
  ∃ pre d, cs = pre ++ r ∧ pre.getLast? = some d ∧ ¬ d = btChar

/-- A concrete valid JSON response (canonical-roundtrip example). -/
def c9JsonResp : String := "\x7b\"a\": 1\x7d"

/-- A concrete valid YAML response with unsorted keys
(canonical-roundtrip example). -/
def c9YamlResp : String := "b: hello\na: 1\n"

/-- The body of one dumped YAML line, before the trailing newline. -/
def yamlLineBody (kv : List Char × YVal) : List Char :=
  kv.1 ++ ':' :: ' ' :: dumpScalarY kv.2

/-- The value parsed from `c9JsonResp`. -/
def c9JsonVal : JVal := .obj (.ocons ['a'] (.num 1) .onil)

/-- The file written for `c9JsonResp`. -/
def c9JsonFile : SavedFile := ⟨"out/doc.json", String.mk (jsonDumps4 c9JsonVal)⟩

/-- The document parsed from `c9YamlResp` (keys in response order). -/
def c9YamlDoc : List (List Char × YVal) :=
  [(['b'], .str ['h', 'e', 'l', 'l', 'o']), (['a'], .int 1)]

/-- The file written for `c9YamlResp`. -/
def c9YamlFile : SavedFile := ⟨"out/doc.yaml", String.mk (yamlDumpL c9YamlDoc)⟩

/-! ## Generic list lemmas -/

theorem wsOnly_append (a b : List Char) :
    wsOnly (a ++ b) = (wsOnly a && wsOnly b) := by
  simp [wsOnly, List.all_append]

theorem filter_all_self {α : Type} (q : α → Bool) (l : List α) :
    (l.filter q).all q = true := by
  induction l with
  | nil => rfl
  | cons a l ih =>
    by_cases h : q a = true
    · simp [List.filter, h, ih]
    · simp [List.filter, h, ih]

theorem filter_eq_self_of_all {α : Type} (q : α → Bool) (l : List α)
    (h : l.all q = true) : l.filter q = l := by
  induction l with
  | nil => rfl
  | cons a l ih =>
    simp only [List.all_cons, Bool.and_eq_true] at h
    simp [List.filter, h.1, ih h.2]

/-! ## Markup Reducer lemmas -/

mutual
theorem imgStep_count : (n : HNode) → ∀ m, imgStep n = some m → imgCountN m = 0
  | .text s => by intro m h; simp [imgStep] at h; subst h; simp [imgCountN]
  | .elem tag attrs cs => by
    intro m h
    by_cases htag : tag = "img"
    · simp [imgStep, htag] at h
    · simp [imgStep, htag] at h
      subst h
      simp [imgCountN, htag, imgL_count cs]
theorem imgL_count : (cs : HForest) → imgCountF (imgL cs) = 0
  | .nil => by simp [imgL, imgCountF]
  | .cons n ns => by
    cases h : imgStep n with
    | none => simp [imgL, h, imgL_count ns]
    | some m => simp [imgL, h, imgCountF, imgStep_count n m h, imgL_count ns]
end

mutual
theorem divStepOk_imgCount : (n : HNode) → ∀ m, divStepOk n = some m →
    imgCountN m ≤ imgCountN n
  | .text s => by intro m h; simp [divStepOk] at h; subst h; exact Nat.le_refl _
  | .elem tag attrs cs => by
    intro m h
    by_cases htag : tag = "div"
    · subst htag
      by_cases h1 : hasStringF cs = true
      · by_cases h2 : wsOnly (textF cs) = true
        · simp [divStepOk, h1, h2] at h
        · simp [divStepOk, h1, h2] at h
          subst h
          simp only [imgCountN]
          exact Nat.add_le_add_left (divLOk_imgCount cs) _
      · simp [divStepOk, h1] at h
    · simp [divStepOk, htag] at h
      subst h
      simp only [imgCountN]
      exact Nat.add_le_add_left (divLOk_imgCount cs) _
theorem divLOk_imgCount : (cs : HForest) → imgCountF (divLOk cs) ≤ imgCountF cs
  | .nil => by simp [divLOk]
  | .cons n ns => by
    cases h : divStepOk n with
    | none =>
      simp only [divLOk, h, imgCountF]
      exact Nat.le_trans (divLOk_imgCount ns) (Nat.le_add_left _ _)
    | some m =>
      simp only [divLOk, h, imgCountF]
      exact Nat.add_le_add (divStepOk_imgCount n m h) (divLOk_imgCount ns)
end

mutual
theorem spanStep_imgCount : (n : HNode) → ∀ m, spanStep n = some m →
    imgCountN m ≤ imgCountN n
  | .text s => by intro m h; simp [spanStep] at h; subst h; exact Nat.le_refl _
  | .elem tag attrs cs => by
    intro m h
    by_cases htag : tag = "span"
    · subst htag
      by_cases h2 : wsOnly (textF cs) = true
      · simp [spanStep, h2] at h
      · simp [spanStep, h2] at h
        subst h
        simp only [imgCountN]
        exact Nat.add_le_add_left (spanL_imgCount cs) _
    · simp [spanStep, htag] at h
      subst h
      simp only [imgCountN]
      exact Nat.add_le_add_left (spanL_imgCount cs) _
theorem spanL_imgCount : (cs : HForest) → imgCountF (spanL cs) ≤ imgCountF cs
  | .nil => by simp [spanL]
  | .cons n ns => by
    cases h : spanStep n with
    | none =>
      simp only [spanL, h, imgCountF]
      exact Nat.le_trans (spanL_imgCount ns) (Nat.le_add_left _ _)
    | some m =>
      simp only [spanL, h, imgCountF]
      exact Nat.add_le_add (spanStep_imgCount n m h) (spanL_imgCount ns)
end

mutual
theorem textN_nil_of_no_string : (n : HNode) → hasStringN n = false → textN n = []
  | .text s => by intro h; simp [hasStringN] at h
  | .elem tag attrs cs => by
    intro h
    simp only [hasStringN] at h
    simp [textN, textF_nil_of_no_string cs h]
theorem textF_nil_of_no_string : (cs : HForest) → hasStringF cs = false → textF cs = []
  | .nil => by intro _; rfl
  | .cons n ns => by
    intro h
    simp only [hasStringF, Bool.or_eq_false_iff] at h
    simp [textF, textN_nil_of_no_string n h.1, textF_nil_of_no_string ns h.2]
end

mutual
theorem divStepOk_none_ws : (n : HNode) → divStepOk n = none → wsOnly (textN n) = true
  | .text s => by intro h; simp [divStepOk] at h
  | .elem tag attrs cs => by
    intro h
    by_cases htag : tag = "div"
    · subst htag
      by_cases h1 : hasStringF cs = true
      · by_cases h2 : wsOnly (textF cs) = true
        · simpa [textN] using h2
        · simp [divStepOk, h1, h2] at h
      · have := textF_nil_of_no_string cs (by simpa using h1)
        simp [textN, this, wsOnly]
    · simp [divStepOk, htag] at h
theorem divStepOk_some_ws : (n : HNode) → ∀ m, divStepOk n = some m →
    wsOnly (textN m) = wsOnly (textN n)
  | .text s => by intro m h; simp [divStepOk] at h; subst h; rfl
  | .elem tag attrs cs => by
    intro m h
    by_cases htag : tag = "div"
    · subst htag
      by_cases h1 : hasStringF cs = true
      · by_cases h2 : wsOnly (textF cs) = true
        · simp [divStepOk, h1, h2] at h
        · simp [divStepOk, h1, h2] at h
          subst h
          simp [textN, divLOk_ws cs]
      · simp [divStepOk, h1] at h
    · simp [divStepOk, htag] at h
      subst h
      simp [textN, divLOk_ws cs]
theorem divLOk_ws : (cs : HForest) → wsOnly (textF (divLOk cs)) = wsOnly (textF cs)
  | .nil => by rfl
  | .cons n ns => by
    cases h : divStepOk n with
    | none =>
      simp only [divLOk, h, textF, wsOnly_append]
      rw [divLOk_ws ns, divStepOk_none_ws n h]
      simp
    | some m =>
      simp only [divLOk, h, textF, wsOnly_append]
      rw [divLOk_ws ns, divStepOk_some_ws n m h]
end

mutual
theorem spanStep_none_ws : (n : HNode) → spanStep n = none → wsOnly (textN n) = true
  | .text s => by intro h; simp [spanStep] at h
  | .elem tag attrs cs => by
    intro h
    by_cases htag : tag = "span"
    · subst htag
      by_cases h2 : wsOnly (textF cs) = true
      · simpa [textN] using h2
      · simp [spanStep, h2] at h
    · simp [spanStep, htag] at h
theorem spanStep_some_ws : (n : HNode) → ∀ m, spanStep n = some m →
    wsOnly (textN m) = wsOnly (textN n)
  | .text s => by intro m h; simp [spanStep] at h; subst h; rfl
  | .elem tag attrs cs => by
    intro m h
    by_cases htag : tag = "span"
    · subst htag
      by_cases h2 : wsOnly (textF cs) = true
      · simp [spanStep, h2] at h
      · simp [spanStep, h2] at h
        subst h
        simp [textN, spanL_ws cs]
    · simp [spanStep, htag] at h
      subst h
      simp [textN, spanL_ws cs]
theorem spanL_ws : (cs : HForest) → wsOnly (textF (spanL cs)) = wsOnly (textF cs)
  | .nil => by rfl
  | .cons n ns => by
    cases h : spanStep n with
    | none =>
      simp only [spanL, h, textF, wsOnly_append]
      rw [spanL_ws ns, spanStep_none_ws n h]
      simp
    | some m =>
      simp only [spanL, h, textF, wsOnly_append]
      rw [spanL_ws ns, spanStep_some_ws n m h]
end

mutual
theorem divStepOk_divsNE : (n : HNode) → ∀ m, divStepOk n = some m →
    divsNonEmptyN m = true
  | .text s => by intro m h; simp [divStepOk] at h; subst h; rfl
  | .elem tag attrs cs => by
    intro m h
    by_cases htag : tag = "div"
    · subst htag
      by_cases h1 : hasStringF cs = true
      · by_cases h2 : wsOnly (textF cs) = true
        · simp [divStepOk, h1, h2] at h
        · simp [divStepOk, h1, h2] at h
          subst h
          simp [divsNonEmptyN, divLOk_ws cs, h2, divLOk_divsNE cs]
      · simp [divStepOk, h1] at h
    · simp [divStepOk, htag] at h
      subst h
      simp [divsNonEmptyN, htag, divLOk_divsNE cs]
theorem divLOk_divsNE : (cs : HForest) → divsNonEmptyF (divLOk cs) = true
  | .nil => by rfl
  | .cons n ns => by
    cases h : divStepOk n with
    | none => simp [divLOk, h, divLOk_divsNE ns]
    | some m =>
      simp [divLOk, h, divsNonEmptyF, divStepOk_divsNE n m h, divLOk_divsNE ns]
end

mutual
theorem spanStep_pres_divsNE : (n : HNode) → divsNonEmptyN n = true →
    ∀ m, spanStep n = some m → divsNonEmptyN m = true
  | .text s => by intro _ m h; simp [spanStep] at h; subst h; rfl
  | .elem tag attrs cs => by
    intro hn m h
    simp only [divsNonEmptyN, Bool.and_eq_true] at hn
    have hcs := spanL_pres_divsNE cs hn.2
    have hshape : m = .elem tag attrs (spanL cs) := by
      by_cases htag : tag = "span"
      · subst htag
        by_cases h2 : wsOnly (textF cs) = true
        · simp [spanStep, h2] at h
        · simp [spanStep, h2] at h
          exact h.symm
      · simp [spanStep, htag] at h; exact h.symm
    subst hshape
    simp only [divsNonEmptyN, Bool.and_eq_true]
    refine ⟨?_, hcs⟩
    by_cases htag : tag = "div"
    · subst htag
      simp only [if_pos rfl] at hn ⊢
      simpa [spanL_ws cs] using hn.1
    · simp [htag]
theorem spanL_pres_divsNE : (cs : HForest) → divsNonEmptyF cs = true →
    divsNonEmptyF (spanL cs) = true
  | .nil => by intro _; rfl
  | .cons n ns => by
    intro hc
    simp only [divsNonEmptyF, Bool.and_eq_true] at hc
    cases h : spanStep n with
    | none => simp [spanL, h, spanL_pres_divsNE ns hc.2]
    | some m =>
      simp [spanL, h, divsNonEmptyF, spanStep_pres_divsNE n hc.1 m h,
        spanL_pres_divsNE ns hc.2]
end

mutual
theorem imgStep_id_of_free : (n : HNode) → imgCountN n = 0 → imgStep n = some n
  | .text s => by intro _; rfl
  | .elem tag attrs cs => by
    intro h
    simp only [imgCountN] at h
    by_cases htag : tag = "img"
    · simp [htag] at h
    · have hcs : imgCountF cs = 0 := by
        by_cases htag2 : tag = "img" <;> simp [htag2] at h <;> omega
      simp [imgStep, htag, imgL_id_of_free cs hcs]
theorem imgL_id_of_free : (cs : HForest) → imgCountF cs = 0 → imgL cs = cs
  | .nil => by intro _; rfl
  | .cons n ns => by
    intro h
    simp only [imgCountF] at h
    have hn : imgCountN n = 0 := by omega
    have hns : imgCountF ns = 0 := by omega
    simp [imgL, imgStep_id_of_free n hn, imgL_id_of_free ns hns]
end

mutual
theorem divStepOk_divClean : (n : HNode) → ∀ m, divStepOk n = some m →
    divCleanN m = true
  | .text s => by intro m h; simp [divStepOk] at h; subst h; rfl
  | .elem tag attrs cs => by
    intro m h
    by_cases htag : tag = "div"
    · subst htag
      by_cases h1 : hasStringF cs = true
      · by_cases h2 : wsOnly (textF cs) = true
        · simp [divStepOk, h1, h2] at h
        · simp [divStepOk, h1, h2] at h
          subst h
          simp [divCleanN, divLOk_ws cs, h2, divLOk_divClean cs,
            filter_all_self (fun p => p.1 ≠ "class") attrs]
      · simp [divStepOk, h1] at h
    · simp [divStepOk, htag] at h
      subst h
      simp [divCleanN, htag, divLOk_divClean cs]
theorem divLOk_divClean : (cs : HForest) → divCleanF (divLOk cs) = true
  | .nil => by rfl
  | .cons n ns => by
    cases h : divStepOk n with
    | none => simp [divLOk, h, divLOk_divClean ns]
    | some m =>
      simp [divLOk, h, divCleanF, divStepOk_divClean n m h, divLOk_divClean ns]
end

mutual
theorem spanStep_pres_divClean : (n : HNode) → divCleanN n = true →
    ∀ m, spanStep n = some m → divCleanN m = true
  | .text s => by intro _ m h; simp [spanStep] at h; subst h; rfl
  | .elem tag attrs cs => by
    intro hn m h
    simp only [divCleanN, Bool.and_eq_true] at hn
    have hcs := spanL_pres_divClean cs hn.2
    have hshape : m = .elem tag attrs (spanL cs) := by
      by_cases htag : tag = "span"
      · subst htag
        by_cases h2 : wsOnly (textF cs) = true
        · simp [spanStep, h2] at h
        · simp [spanStep, h2] at h
          exact h.symm
      · simp [spanStep, htag] at h
        exact h.symm
    subst hshape
    simp only [divCleanN, Bool.and_eq_true]
    refine ⟨?_, hcs⟩
    by_cases htag : tag = "div"
    · subst htag
      simp only [if_pos rfl] at hn ⊢
      simpa [spanL_ws cs] using hn.1
    · simp [htag]
theorem spanL_pres_divClean : (cs : HForest) → divCleanF cs = true →
    divCleanF (spanL cs) = true
  | .nil => by intro _; rfl
  | .cons n ns => by
    intro hc
    simp only [divCleanF, Bool.and_eq_true] at hc
    cases h : spanStep n with
    | none => simp [spanL, h, spanL_pres_divClean ns hc.2]
    | some m =>
      simp [spanL, h, divCleanF, spanStep_pres_divClean n hc.1 m h,
        spanL_pres_divClean ns hc.2]
end

mutual
theorem divStepOk_id_of_clean : (n : HNode) → divCleanN n = true → divStepOk n = some n
  | .text s => by intro _; rfl
  | .elem tag attrs cs => by
    intro hn
    simp only [divCleanN, Bool.and_eq_true] at hn
    have hcs := divLOk_id_of_clean cs hn.2
    by_cases htag : tag = "div"
    · subst htag
      have h1 := hn.1
      simp at h1
      have hws : wsOnly (textF cs) = false := h1.1
      have hstr : hasStringF cs = true := by
        by_contra hh
        have ht : textF cs = [] := textF_nil_of_no_string cs (by simpa using hh)
        rw [ht] at hws
        simp [wsOnly] at hws
      simp [divStepOk, hstr, hws, hcs]
      exact h1.2
    · simp [divStepOk, htag, hcs]
theorem divLOk_id_of_clean : (cs : HForest) → divCleanF cs = true → divLOk cs = cs
  | .nil => by intro _; rfl
  | .cons n ns => by
    intro hc
    simp only [divCleanF, Bool.and_eq_true] at hc
    simp [divLOk, divStepOk_id_of_clean n hc.1, divLOk_id_of_clean ns hc.2]
end

mutual
theorem spanStep_spanClean : (n : HNode) → ∀ m, spanStep n = some m →
    spanCleanN m = true
  | .text s => by intro m h; simp [spanStep] at h; subst h; rfl
  | .elem tag attrs cs => by
    intro m h
    by_cases htag : tag = "span"
    · subst htag
      by_cases h2 : wsOnly (textF cs) = true
      · simp [spanStep, h2] at h
      · simp [spanStep, h2] at h
        subst h
        simp [spanCleanN, spanL_ws cs, h2, spanL_spanClean cs]
    · simp [spanStep, htag] at h
      subst h
      simp [spanCleanN, htag, spanL_spanClean cs]
theorem spanL_spanClean : (cs : HForest) → spanCleanF (spanL cs) = true
  | .nil => by rfl
  | .cons n ns => by
    cases h : spanStep n with
    | none => simp [spanL, h, spanL_spanClean ns]
    | some m =>
      simp [spanL, h, spanCleanF, spanStep_spanClean n m h, spanL_spanClean ns]
end

mutual
theorem spanStep_id_of_clean : (n : HNode) → spanCleanN n = true →
    spanStep n = some n
  | .text s => by intro _; rfl
  | .elem tag attrs cs => by
    intro hn
    simp only [spanCleanN, Bool.and_eq_true] at hn
    have hcs := spanL_id_of_clean cs hn.2
    by_cases htag : tag = "span"
    · subst htag
      simp only [if_pos rfl] at hn
      have hws : wsOnly (textF cs) = false := by
        rcases hn.1 with h
        simpa using h
      simp [spanStep, hws, hcs]
    · simp [spanStep, htag, hcs]
theorem spanL_id_of_clean : (cs : HForest) → spanCleanF cs = true → spanL cs = cs
  | .nil => by intro _; rfl
  | .cons n ns => by
    intro hc
    simp only [spanCleanF, Bool.and_eq_true] at hc
    simp [spanL, spanStep_id_of_clean n hc.1, spanL_id_of_clean ns hc.2]
end

mutual
/-- On its error-free path the `div` pass computes `divStepOk`. -/
theorem divStep_ok_eq : (n : HNode) → ∀ r, divStep n = .ok r → divStepOk n = r
  | .text s => by
    intro r h
    simp only [divStep] at h
    injection h with h1
  | .elem tag attrs cs => by
    intro r h
    by_cases htag : tag = "div"
    · subst htag
      by_cases h1 : hasStringF cs = true
      · by_cases h2 : wsOnly (textF cs) = true
        · simp only [divStep, if_pos rfl, h1, h2] at h
          simp only [not_true, if_false, if_true] at h
          cases hdv : hasDivF cs with
          | true => rw [hdv] at h; simp at h
          | false =>
            rw [hdv] at h
            simp only [Bool.false_eq_true, if_false] at h
            injection h with h3
            simp [divStepOk, h1, h2, ← h3]
        · simp only [divStep, if_pos rfl, h1, h2] at h
          simp only [not_true, if_false, Bool.false_eq_true] at h
          cases hdl : divL cs with
          | error e => rw [hdl] at h; simp at h
          | ok cs2 =>
            rw [hdl] at h
            simp only [] at h
            injection h with h3
            simp [divStepOk, h1, h2, divL_ok_eq cs cs2 hdl, ← h3]
      · simp only [divStep, if_pos rfl, h1] at h
        simp only [Bool.false_eq_true, not_false_iff, if_true] at h
        cases hdv : hasDivF cs with
        | true => rw [hdv] at h; simp at h
        | false =>
          rw [hdv] at h
          simp only [Bool.false_eq_true, if_false] at h
          injection h with h3
          simp [divStepOk, h1, ← h3]
    · simp only [divStep, htag, if_false] at h
      cases hdl : divL cs with
      | error e => rw [hdl] at h; simp at h
      | ok cs2 =>
        rw [hdl] at h
        simp only [] at h
        injection h with h3
        simp [divStepOk, htag, divL_ok_eq cs cs2 hdl, ← h3]
/-- Forest version of `divStep_ok_eq`. -/
theorem divL_ok_eq : (ns : HForest) → ∀ rs, divL ns = .ok rs → divLOk ns = rs
  | .nil => by
    intro rs h
    simp only [divL] at h
    injection h with h1
  | .cons n ns => by
    intro rs h
    simp only [divL] at h
    cases hds : divStep n with
    | error e => rw [hds] at h; simp at h
    | ok o =>
      rw [hds] at h
      cases o with
      | none =>
        simp only [] at h
        simp [divLOk, divStep_ok_eq n none hds, divL_ok_eq ns rs h]
      | some m =>
        simp only [] at h
        cases hdl : divL ns with
        | error e => rw [hdl] at h; simp at h
        | ok ms =>
          rw [hdl] at h
          simp only [] at h
          injection h with h1
          simp [divLOk, divStep_ok_eq n (some m) hds,
            divL_ok_eq ns ms hdl, ← h1]
end

mutual
/-- On a `div`-clean tree (every `div` has non-whitespace text and no
`class` attribute) the `div` pass succeeds and changes nothing: no `div`
is decomposed, so the `TypeError` path is unreachable. -/
theorem divStep_ok_of_clean : (n : HNode) → divCleanN n = true →
    divStep n = .ok (some n)
  | .text s => by intro _; rfl
  | .elem tag attrs cs => by
    intro hn
    simp only [divCleanN, Bool.and_eq_true] at hn
    have hcs := divL_ok_of_clean cs hn.2
    by_cases htag : tag = "div"
    · subst htag
      have h1 := hn.1
      simp at h1
      have hws : wsOnly (textF cs) = false := h1.1
      have hstr : hasStringF cs = true := by
        by_contra hh
        have ht : textF cs = [] := textF_nil_of_no_string cs (by simpa using hh)
        rw [ht] at hws
        simp [wsOnly] at hws
      have hall : attrs.all (fun p => p.1 ≠ "class") = true :=
        List.all_eq_true.mpr (fun x hx => by simpa using h1.2 x.1 x.2 hx)
      simp only [divStep, if_pos rfl, hstr, not_true, if_false, hws,
        Bool.false_eq_true, hcs]
      simp [filter_eq_self_of_all _ attrs hall]
      exact h1.2
    · simp [divStep, htag, hcs]
/-- Forest version of `divStep_ok_of_clean`. -/
theorem divL_ok_of_clean : (cs : HForest) → divCleanF cs = true →
    divL cs = .ok cs
  | .nil => by intro _; rfl
  | .cons n ns => by
    intro hc
    simp only [divCleanF, Bool.and_eq_true] at hc
    simp [divL, divStep_ok_of_clean n hc.1, divL_ok_of_clean ns hc.2]
end

/-- C3: the Markup Reducer is idempotent: for every page markup, running
`_remove_images_and_empty_divs` after itself behaves exactly like running
it once (a raise on the first run is the behaviour of both), and every
successfully reduced page is a fixed point: reducing it again succeeds and
returns it unchanged. -/
theorem claim3_reducer_idempotent :
    (∀ page : HNode,
        (_remove_images_and_empty_divs page).bind _remove_images_and_empty_divs =
          _remove_images_and_empty_divs page) ∧
    (∀ page page2 : HNode, _remove_images_and_empty_divs page = .ok page2 →
        _remove_images_and_empty_divs page2 = .ok page2) := by
  have hfix : ∀ page page2 : HNode,
      _remove_images_and_empty_divs page = .ok page2 →
      _remove_images_and_empty_divs page2 = .ok page2 := by
    intro page page2 h
    cases page with
    | text s =>
      simp only [_remove_images_and_empty_divs] at h
      injection h with h1
      rw [← h1]
      rfl
    | elem tag attrs cs =>
      simp only [_remove_images_and_empty_divs] at h
      cases hdl : divL (imgL cs) with
      | error e => rw [hdl] at h; simp at h
      | ok cs2 =>
        rw [hdl] at h
        simp only [] at h
        injection h with h1
        have hcs2 : divLOk (imgL cs) = cs2 := divL_ok_eq (imgL cs) cs2 hdl
        rw [← h1]
        simp only [_remove_images_and_empty_divs]
        have himg : imgCountF (spanL cs2) = 0 := by
          have h0 := imgL_count cs
          have h2 := divLOk_imgCount (imgL cs)
          have h3 := spanL_imgCount (divLOk (imgL cs))
          rw [hcs2] at h2 h3
          omega
        rw [imgL_id_of_free _ himg]
        have hclean : divCleanF (spanL cs2) = true := by
          have := spanL_pres_divClean _ (divLOk_divClean (imgL cs))
          rw [hcs2] at this
          exact this
        rw [divL_ok_of_clean _ hclean]
        have hspan : spanL (spanL cs2) = spanL cs2 := by
          have := spanL_id_of_clean _ (spanL_spanClean (divLOk (imgL cs)))
          rw [hcs2] at this
          exact this
        show Except.ok (HNode.elem tag attrs (spanL (spanL cs2))) =
          Except.ok (HNode.elem tag attrs (spanL cs2))
        rw [hspan]
  refine ⟨?_, hfix⟩
  intro page
  cases hred : _remove_images_and_empty_divs page with
  | error e => rfl
  | ok page2 => exact hfix page page2 hred

/-- Witness for C3: the spec scenario page reduces successfully (the empty
`div` it removes contains no other `div`), and re-reducing the reduced
page reproduces it. -/
theorem claim3_reducer_idempotent_witness :
    _remove_images_and_empty_divs specScenarioPage = .ok specReducedPage ∧
    _remove_images_and_empty_divs specReducedPage = .ok specReducedPage :=
  ⟨rfl, claim3_reducer_idempotent.2 specScenarioPage specReducedPage rfl⟩

/-- C4 (code bug): the claimed emptiness cascade does not happen.  A `div`
whose subtree has no non-whitespace text is decomposed, and when that
subtree contains another `div`, the eagerly computed `find_all("div")`
list makes the loop revisit the now-gutted inner `div` and raise
`TypeError` at `"class" in div.attrs`.  In particular, on the claim's own
input — nested empty containers — the reducer raises instead of
collapsing them. -/
theorem claim4_nested_empty_crash :
    (∀ (attrs : List (String × String)) (cs : HForest),
        (!hasStringF cs || wsOnly (textF cs)) = true →
        hasDivF cs = true →
        divStep (.elem "div" attrs cs) = .error .typeError) ∧
    _remove_images_and_empty_divs nestedEmptyPage = .error .typeError := by
  constructor
  · intro attrs cs hempty hdiv
    simp only [Bool.or_eq_true, Bool.not_eq_eq_eq_not, Bool.not_true] at hempty
    rcases hempty with h1 | h1
    · simp [divStep, h1, hdiv]
    · by_cases hs : hasStringF cs = true
      · simp [divStep, hs, h1, hdiv]
      · simp [divStep, hs, hdiv]
  · rfl

/-- Witness for C4 at a concrete string-free subtree holding one `div`. -/
theorem claim4_nested_empty_crash_witness :
    (!hasStringF c4EmptyForest || wsOnly (textF c4EmptyForest)) = true ∧
    hasDivF c4EmptyForest = true ∧
    divStep (.elem "div" [] c4EmptyForest) = .error .typeError :=
  ⟨by decide, by decide,
    claim4_nested_empty_crash.1 [] c4EmptyForest (by decide) (by decide)⟩

/-- C5: for every page whose root is not itself an `img` element (the
pipeline always passes page `div`s), a successfully reduced page contains
zero image elements at any depth. -/
theorem claim5_image_invariant :
    ∀ page page2 : HNode, isImgRoot page = false →
      _remove_images_and_empty_divs page = .ok page2 →
      imgCountN page2 = 0 := by
  intro page page2 h hred
  cases page with
  | text s =>
    simp only [_remove_images_and_empty_divs] at hred
    injection hred with h1
    rw [← h1]
    rfl
  | elem tag attrs cs =>
    have htag : ¬ tag = "img" := by simpa [isImgRoot] using h
    simp only [_remove_images_and_empty_divs] at hred
    cases hdl : divL (imgL cs) with
    | error e => rw [hdl] at hred; simp at hred
    | ok cs2 =>
      rw [hdl] at hred
      simp only [] at hred
      injection hred with h1
      have hcs2 : divLOk (imgL cs) = cs2 := divL_ok_eq (imgL cs) cs2 hdl
      have h0 := imgL_count cs
      have h2 := divLOk_imgCount (imgL cs)
      have h3 := spanL_imgCount (divLOk (imgL cs))
      rw [hcs2] at h2 h3
      rw [← h1]
      simp only [imgCountN, htag, if_false]
      omega

/-- Witness for C5 at the spec scenario page. -/
theorem claim5_image_invariant_witness :
    isImgRoot specScenarioPage = false ∧
    _remove_images_and_empty_divs specScenarioPage = .ok specReducedPage ∧
    imgCountN specReducedPage = 0 :=
  ⟨by decide, rfl,
    claim5_image_invariant specScenarioPage specReducedPage (by decide) rfl⟩

/-- C7: with structured-output mode (`json_mode`) enabled, a request for
model `gpt-4` is actually sent with the substituted model
`gpt-4-turbo-preview` (never `gpt-4`) and is not failed; any other model
that reaches the network is sent unchanged. -/
theorem claim7_model_substitution :
    (∀ ep q s p, run_inference ep q "gpt-4" s p true =
      .sendRequest ⟨"gpt-4-turbo-preview", s, .json_object⟩) ∧
    (∀ ep q m s p req, m ≠ "gpt-4" →
      run_inference ep q m s p true = .sendRequest req → req.model = m) := by
  constructor
  · intro ep q s p
    simp [run_inference]
  · intro ep q m s p req hm h
    by_cases hl : (m = "local-model" && ep.isNone) = true
    · simp [run_inference, hl] at h
    · simp only [run_inference, hl, if_false, Bool.false_eq_true] at h
      simp only [if_pos trivial, hm, if_false] at h
      have := (GatewayAction.sendRequest.injEq _ _).mp h.symm
      rw [this]

/-- Witness for C7: `gpt-4` is substituted; `gpt-3.5-turbo` passes through. -/
theorem claim7_model_substitution_witness :
    run_inference none "q" "gpt-4" false "p" true =
      .sendRequest ⟨"gpt-4-turbo-preview", false, .json_object⟩ ∧
    (⟨"gpt-3.5-turbo", false, .json_object⟩ : ChatRequest).model =
      "gpt-3.5-turbo" :=
  ⟨claim7_model_substitution.1 none "q" false "p",
   claim7_model_substitution.2 none "q" "gpt-3.5-turbo" false "p"
     ⟨"gpt-3.5-turbo", false, .json_object⟩ (by decide) rfl⟩

/-- C8: when the model is the local-model sentinel and no `api_endpoint`
was supplied to the pipeline, `run_inference` raises `ValueError` — the
guard runs before the client is constructed and before any request value
is formed — and never sends a request to a remote endpoint. -/
theorem claim8_local_model_guard (streaming json_mode : Bool) (q p : String) :
    run_inference none q "local-model" streaming p json_mode =
      .raiseValueError
        "API endpoint must be provided when using a local model." := by
  simp [run_inference]

/-! ## `str.replace` lemmas -/

theorem pyReplaceAux_no_occur (pat repl : List Char) :
    ∀ fuel cs, cs.length ≤ fuel → hasSub pat cs = false →
      pyReplaceAux pat repl fuel cs = cs := by
  intro fuel
  induction fuel with
  | zero =>
    intro cs hlen _
    cases cs with
    | nil => rfl
    | cons c rest => simp at hlen
  | succ f ih =>
    intro cs hlen hocc
    cases cs with
    | nil => rfl
    | cons c rest =>
      simp only [hasSub, Bool.or_eq_false_iff] at hocc
      simp only [pyReplaceAux, hocc.1, Bool.false_eq_true, if_false]
      have : rest.length ≤ f := by
        simp only [List.length_cons] at hlen
        omega
      rw [ih rest this hocc.2]

theorem pyReplace_no_occur (cs pat repl : List Char)
    (h : hasSub pat cs = false) : pyReplace cs pat repl = cs :=
  pyReplaceAux_no_occur pat repl cs.length cs (Nat.le_refl _) h

theorem pyReplaceAux_single (a b : Char) :
    ∀ fuel cs, cs.length ≤ fuel →
      pyReplaceAux [a] [b] fuel cs =
        cs.map (fun c => if c = a then b else c) := by
  intro fuel
  induction fuel with
  | zero =>
    intro cs hlen
    cases cs with
    | nil => rfl
    | cons c rest => simp at hlen
  | succ f ih =>
    intro cs hlen
    cases cs with
    | nil => rfl
    | cons c rest =>
      have hrest : rest.length ≤ f := by
        simp only [List.length_cons] at hlen
        omega
      have hpre : [a].isPrefixOf (c :: rest) = (a == c) := by
        simp [List.isPrefixOf]
      by_cases hc : c = a
      · subst hc
        rw [beq_self_eq_true] at hpre
        simp [pyReplaceAux, hpre, ih rest hrest]
      · have hfa : (a == c) = false := beq_eq_false_iff_ne.mpr (Ne.symm hc)
        rw [hfa] at hpre
        simp [pyReplaceAux, hpre, ih rest hrest, hc]

theorem pyReplace_single (cs : List Char) (a b : Char) :
    pyReplace cs [a] [b] = cs.map (fun c => if c = a then b else c) :=
  pyReplaceAux_single a b cs.length cs (Nat.le_refl _)

theorem hasSub_append_false (p q cs : List Char) (h : hasSub p cs = false) :
    hasSub (p ++ q) cs = false := by
  induction cs with
  | nil =>
    simp only [hasSub] at h ⊢
    cases p with
    | nil => simp at h
    | cons x xs => rfl
  | cons c rest ih =>
    simp only [hasSub, Bool.or_eq_false_iff] at h ⊢
    refine ⟨?_, ih h.2⟩
    cases hpq : (p ++ q).isPrefixOf (c :: rest) with
    | false => rfl
    | true =>
      have h1 : (p ++ q) <+: (c :: rest) := List.isPrefixOf_iff_prefix.mp hpq
      have h2 : p <+: (c :: rest) := (List.prefix_append p q).trans h1
      have h3 := List.isPrefixOf_iff_prefix.mpr h2
      rw [h.1] at h3
      exact absurd h3 Bool.false_ne_true

theorem map_eq_self_of {α : Type} (f : α → α) (l : List α)
    (h : ∀ c ∈ l, f c = c) : l.map f = l := by
  induction l with
  | nil => rfl
  | cons a l ih =>
    simp only [List.map_cons, h a (List.mem_cons_self a l)]
    rw [ih (fun c hc => h c (List.mem_cons_of_mem a hc))]

/-- C6: after fence markers are removed, the YAML repair pass rewrites
every `[` and every `]` to `"` (it is exactly the character map on
fence-free input); on input with neither fences nor brackets it is the
identity, so already-valid responses are parsed unchanged; and the line
`key: [a, b]` is repaired to `key: "a, b"` and parsed as the mapping with
the quoted scalar `a, b`. -/
theorem claim6_yaml_repair :
    (∀ s : String, noFenceMarker s = true →
      yamlCleanStage s = bracketMap s.data) ∧
    (∀ s : String, noFenceMarker s = true → noBrackets s = true →
      yamlCleanStage s = s.data) ∧
    yamlCleanStage "key: [a, b]" = "key: \"a, b\"".data ∧
    yamlLoadL ("key: \"a, b\"".data) =
      .ok [("key".data, .str "a, b".data)] := by
  have hmain : ∀ s : String, noFenceMarker s = true →
      yamlCleanStage s = bracketMap s.data := by
    intro s hf
    have hf3 : hasSub "```".data s.data = false := by
      simpa [noFenceMarker] using hf
    have hf7 : hasSub "```yaml".data s.data = false := by
      have : ("```yaml".data : List Char) = "```".data ++ "yaml".data := rfl
      rw [this]
      exact hasSub_append_false _ _ _ hf3
    unfold yamlCleanStage
    rw [pyReplace_no_occur _ _ _ hf7, pyReplace_no_occur _ _ _ hf3]
    rw [pyReplace_single, pyReplace_single, List.map_map]
    unfold bracketMap
    congr 1
    funext c
    by_cases h1 : c = '['
    · subst h1
      simp
    · by_cases h2 : c = ']'
      · subst h2
        simp
      · simp [Function.comp, h1, h2]
  refine ⟨hmain, ?_, rfl, rfl⟩
  intro s hf hb
  rw [hmain s hf]
  unfold bracketMap
  apply map_eq_self_of
  have hb2 : ∀ x ∈ s.data, ¬x = '[' ∧ ¬x = ']' := by simpa [noBrackets] using hb
  intro c hc
  simp [(hb2 c hc).1, (hb2 c hc).2]

/-- Witness for C6 on the fence-free, bracket-free response `key: value`. -/
theorem claim6_yaml_repair_witness :
    yamlCleanStage "key: value" = bracketMap ("key: value".data) ∧
    yamlCleanStage "key: value" = "key: value".data :=
  ⟨claim6_yaml_repair.1 "key: value" (by decide),
   claim6_yaml_repair.2.1 "key: value" (by decide) (by decide)⟩

/-! ## Strip-stage lemmas -/

theorem dropWhile_id_of_all_neg (q : Char → Bool) (l : List Char)
    (h : ∀ c ∈ l, q c = false) : l.dropWhile q = l := by
  cases l with
  | nil => rfl
  | cons c rest =>
    simp [List.dropWhile_cons, h c (List.mem_cons_self c rest)]

theorem dropWhile_append_all (q : Char → Bool) (a b : List Char)
    (h : ∀ c ∈ a, q c = true) : (a ++ b).dropWhile q = b.dropWhile q := by
  induction a with
  | nil => rfl
  | cons c rest ih =>
    simp only [List.cons_append, List.dropWhile_cons,
      h c (List.mem_cons_self c rest), if_true]
    exact ih (fun x hx => h x (List.mem_cons_of_mem c hx))

theorem dropWhile_append_ne_nil (q : Char → Bool) (a b : List Char)
    (h : a.dropWhile q ≠ []) :
    (a ++ b).dropWhile q = a.dropWhile q ++ b := by
  induction a with
  | nil => exact absurd rfl h
  | cons c rest ih =>
    by_cases hc : q c = true
    · simp only [List.dropWhile_cons, hc, if_true] at h ⊢
      simp only [List.cons_append, List.dropWhile_cons, hc, if_true]
      exact ih h
    · simp only [List.cons_append, List.dropWhile_cons, hc]
      simp [hc]

theorem stripEnds_outer_ws (p : Char → Bool) (a x b : List Char)
    (ha : ∀ c ∈ a, p c = true) (hb : ∀ c ∈ b, p c = true) :
    stripEnds p (a ++ (x ++ b)) = stripEnds p x := by
  unfold stripEnds
  rw [dropWhile_append_all p a (x ++ b) ha]
  by_cases hx : x.dropWhile p = []
  · rw [hx]
    have hxb : (x ++ b).dropWhile p = b.dropWhile p := by
      have hall : ∀ c ∈ x, p c = true := by
        intro c hc
        by_contra hcc
        have : x.dropWhile p ≠ [] := by
          intro hnil
          have := List.dropWhile_eq_nil_iff.mp hnil
          exact absurd (this c hc) hcc
        exact this hx
      exact dropWhile_append_all p x b hall
    rw [hxb]
    have hbnil : b.dropWhile p = [] := by
      apply List.dropWhile_eq_nil_iff.mpr
      intro c hc
      simp [hb c hc]
    rw [hbnil]
  · rw [dropWhile_append_ne_nil p x b hx]
    rw [List.reverse_append]
    have hbrev : ∀ c ∈ b.reverse, p c = true := by
      intro c hc
      exact hb c (List.mem_reverse.mp hc)
    rw [dropWhile_append_all p b.reverse (x.dropWhile p).reverse hbrev]

theorem jsonLoadsL_congr (a b : List Char)
    (h : stripEnds isJsonWs a = stripEnds isJsonWs b) :
    jsonLoadsL a = jsonLoadsL b := by
  unfold jsonLoadsL
  rw [h]

theorem pValue_head_j (fuel : Nat) (rest : List Char) :
    pValue fuel ('j' :: rest) = .error () := by
  cases fuel with
  | zero => rfl
  | succ f => rfl

theorem stripEnds_cons_head (p : Char → Bool) (c : Char) (cs : List Char)
    (h : p c = false) :
    stripEnds p (c :: cs) = c :: ((cs.reverse.dropWhile p).reverse) := by
  unfold stripEnds
  rw [List.dropWhile_cons, h]
  simp only [Bool.false_eq_true, if_false, List.reverse_cons]
  by_cases hx : cs.reverse.dropWhile p = []
  · rw [dropWhile_append_all p cs.reverse [c]
      (fun x hx2 => by
        have := List.dropWhile_eq_nil_iff.mp hx
        exact this x hx2)]
    rw [hx]
    simp [List.dropWhile_cons, h]
  · rw [dropWhile_append_ne_nil p cs.reverse [c] hx]
    simp

theorem pyStrip_bt_wrap_untagged (x : List Char) :
    pyStripChars [btChar]
      ([btChar, btChar, btChar] ++
        (('\n' :: x) ++ ('\n' :: [btChar, btChar, btChar]))) =
      '\n' :: (x ++ ['\n']) := by
  have h2 : ¬('\n' = btChar) := by decide
  simp [pyStripChars, List.dropWhile_cons, h2]

theorem pyStrip_bt_wrap_tagged (x : List Char) :
    pyStripChars [btChar]
      ([btChar, btChar, btChar] ++
        (("json\n".data ++ x) ++ ('\n' :: [btChar, btChar, btChar]))) =
      "json\n".data ++ (x ++ ['\n']) := by
  have h2 : ¬('\n' = btChar) := by decide
  have h3 : ¬('j' = btChar) := by decide
  have h4 : ¬('s' = btChar) := by decide
  have h5 : ¬('o' = btChar) := by decide
  have h6 : ¬('n' = btChar) := by decide
  have hdata : ("json\n".data : List Char) = 'j' :: 's' :: 'o' :: 'n' :: '\n' :: [] := rfl
  simp [pyStripChars, List.dropWhile_cons, h2, h3, h4, h5, h6, hdata]

/-- Counterexample to C1 as stated: on the spec's own scenario payload the
bare and untagged-fenced forms validate to the same record, but the fenced
block tagged with the format name `json` fails validation — `str.strip`
removes only backtick characters, so the tag `json` is left glued to the
payload. -/
theorem claim1_counterexample :
    jsonParseStage c1Payload = .ok c1Record ∧
    jsonParseStage (wrapUntagged c1Payload) = .ok c1Record ∧
    jsonParseStage (wrapTaggedJson c1Payload) = .error () :=
  ⟨rfl, rfl, rfl⟩

/-- C10: validation is atomic with respect to persistence: whenever the
parse stage of a validator fails, the validator raises and produces no
file (in the source the `open(...)`/write happens strictly after a
successful parse, so a parse failure reaches the `raise` before any file
is created or modified). -/
theorem claim10_parse_before_write :
    (∀ r d n, jsonParseStage r = .error () →
      save_response_as_json r d n = .error "Failed to decode response as JSON" ∧
      ∀ f, save_response_as_json r d n ≠ .ok f) ∧
    (∀ r d n, yamlParseStage r = .error () →
      save_response_as_yaml r d n = .error "Failed to decode response as YAML" ∧
      ∀ f, save_response_as_yaml r d n ≠ .ok f) := by
  constructor
  · intro r d n h
    have he : save_response_as_json r d n =
        .error "Failed to decode response as JSON" := by
      simp [save_response_as_json, h]
    exact ⟨he, fun f hf => by rw [he] at hf; exact Except.noConfusion hf⟩
  · intro r d n h
    have he : save_response_as_yaml r d n =
        .error "Failed to decode response as YAML" := by
      simp [save_response_as_yaml, h]
    exact ⟨he, fun f hf => by rw [he] at hf; exact Except.noConfusion hf⟩

/-- Witness for C10 on two concretely invalid responses. -/
theorem claim10_parse_before_write_witness :
    (save_response_as_json "not json" "out" "doc" =
      .error "Failed to decode response as JSON") ∧
    (save_response_as_yaml "key: [unclosed" "out" "doc" =
      .error "Failed to decode response as YAML") :=
  ⟨(claim10_parse_before_write.1 "not json" "out" "doc" rfl).1,
   (claim10_parse_before_write.2 "key: [unclosed" "out" "doc" rfl).1⟩

/-- Counterexample to C2 as stated: with an invalid first (HTML→JSON)
response and a valid HTML→YAML response for the same document, the run
persists nothing at all — the valid YAML variant does not proceed, even
though saving it alone would succeed. -/
theorem claim2_counterexample :
    process_single_pdf c2Responses "out" "doc" =
      ([], some "Failed to decode response as JSON") ∧
    save_response_as_yaml c2Responses.html_tables_as_yaml "out" "doc_whole" =
      .ok ⟨"out/doc_whole.yaml", "key: value\n"⟩ :=
  ⟨rfl, rfl⟩

/-- C2 (amended): a validation error in one (document, variant) pair is
fatal for the rest of the document's processing: the `ValueError`
propagates out of `process_single_pdf` (which installs no handler), so a
failure of the first variant prevents every later variant of the same
document from being attempted or persisted; variants persisted before the
failure remain. -/
theorem claim2_amended_abort (resp : PdfResponses) (o n : String)
    (h : jsonParseStage resp.html_tables_as_json = .error ()) :
    process_single_pdf resp o n =
      ([], some "Failed to decode response as JSON") := by
  have he : save_response_as_json resp.html_tables_as_json o (n ++ "_whole") =
      .error "Failed to decode response as JSON" := by
    simp [save_response_as_json, h]
  simp [process_single_pdf, he]

/-- Witness for the amended C2. -/
theorem claim2_amended_abort_witness :
    process_single_pdf c2Responses "out" "doc" =
      ([], some "Failed to decode response as JSON") :=
  claim2_amended_abort c2Responses "out" "doc" rfl

/-! ## Decimal digit lemmas -/

theorem digitVal_digitChar : ∀ n < 10, digitVal (digitChar n) = n := by decide

theorem digitChar_isDigit : ∀ n < 10, (digitChar n).isDigit = true := by decide

theorem digitChar_ne_zero : ∀ n, 1 ≤ n → n < 10 → ¬ digitChar n = '0' := by
  decide

theorem isDigit_not_ws (c : Char) (h : c.isDigit = true) : isJsonWs c = false := by
  simp only [Char.isDigit, UInt32.le_def, BitVec.le_def, Bool.and_eq_true,
    decide_eq_true_eq] at h
  simp only [isJsonWs, Bool.or_eq_false_iff, decide_eq_false_iff_not]
  refine ⟨⟨⟨?_, ?_⟩, ?_⟩, ?_⟩ <;> intro he <;> subst he <;> simp at h <;> omega

theorem isDigit_not_alpha (c : Char) (h : c.isDigit = true) : c.isAlpha = false := by
  simp [Char.isDigit, Char.isAlpha, Char.isUpper, Char.isLower,
    UInt32.le_def, BitVec.le_def] at h ⊢
  omega

theorem isAlpha_not_digit (c : Char) (h : c.isAlpha = true) : c.isDigit = false := by
  simp [Char.isDigit, Char.isAlpha, Char.isUpper, Char.isLower,
    UInt32.le_def, BitVec.le_def] at h ⊢
  omega

theorem natToDigits_fuel : ∀ f g n, n < f → n < g →
    natToDigits f n = natToDigits g n := by
  intro f
  induction f with
  | zero => intro g n h _; omega
  | succ f ih =>
    intro g n hf hg
    cases g with
    | zero => omega
    | succ g =>
      by_cases h10 : n < 10
      · simp [natToDigits, h10]
      · have hdiv : n / 10 < n := Nat.div_lt_self (by omega) (by omega)
        simp only [natToDigits, h10, if_false]
        rw [ih g (n / 10) (by omega) (by omega)]

theorem natToDigits_eq_natRepr (f n : Nat) (h : n < f) :
    natToDigits f n = natRepr n :=
  natToDigits_fuel f (n + 1) n h (Nat.lt_succ_self n)

theorem digitsToNat_append1 (a : List Char) (c : Char) :
    digitsToNat (a ++ [c]) = 10 * digitsToNat a + digitVal c := by
  simp [digitsToNat, List.foldl_append]

theorem natRepr_step (n : Nat) (h10 : ¬ n < 10) :
    natRepr n = natRepr (n / 10) ++ [digitChar (n % 10)] := by
  have h1 : natRepr n =
      if n < 10 then [digitChar n]
      else natToDigits n (n / 10) ++ [digitChar (n % 10)] := rfl
  rw [h1, if_neg h10, natToDigits_eq_natRepr n (n / 10) (by omega)]

theorem digitsToNat_natRepr (n : Nat) : digitsToNat (natRepr n) = n := by
  induction n using Nat.strong_induction_on with
  | _ n ih =>
    by_cases h10 : n < 10
    · have hr : natRepr n = [digitChar n] := by simp [natRepr, natToDigits, h10]
      rw [hr]
      have : digitsToNat [digitChar n] = digitVal (digitChar n) := by
        simp [digitsToNat]
      rw [this, digitVal_digitChar n h10]
    · have hdiv : n / 10 < n := Nat.div_lt_self (by omega) (by omega)
      rw [natRepr_step n h10, digitsToNat_append1, ih (n / 10) hdiv,
        digitVal_digitChar (n % 10) (Nat.mod_lt n (by omega))]
      omega

theorem natToDigits_all_digit : ∀ f n, n < f →
    (natToDigits f n).all Char.isDigit = true := by
  intro f
  induction f with
  | zero => intro n h; omega
  | succ f ih =>
    intro n hf
    by_cases h10 : n < 10
    · simp [natToDigits, h10, digitChar_isDigit n h10]
    · have hdiv : n / 10 < n := Nat.div_lt_self (by omega) (by omega)
      simp only [natToDigits, h10, if_false, List.all_append]
      rw [ih (n / 10) (by omega)]
      simp [digitChar_isDigit (n % 10) (Nat.mod_lt n (by omega))]

theorem natRepr_all_digit (n : Nat) : (natRepr n).all Char.isDigit = true :=
  natToDigits_all_digit (n + 1) n (Nat.lt_succ_self n)

theorem natRepr_ne_nil (n : Nat) : natRepr n ≠ [] := by
  by_cases h10 : n < 10
  · simp [natRepr, natToDigits, h10]
  · rw [natRepr_step n h10]
    simp

theorem natRepr_head_ne_zero (n : Nat) (h1 : 1 ≤ n) :
    ∀ c rest, natRepr n = c :: rest → ¬ c = '0' := by
  induction n using Nat.strong_induction_on with
  | _ n ih =>
    intro c rest hr
    by_cases h10 : n < 10
    · have : natRepr n = [digitChar n] := by simp [natRepr, natToDigits, h10]
      rw [this] at hr
      cases hr
      exact digitChar_ne_zero n h1 h10
    · rw [natRepr_step n h10] at hr
      have hdiv : n / 10 < n := Nat.div_lt_self (by omega) (by omega)
      cases hh : natRepr (n / 10) with
      | nil => exact absurd hh (natRepr_ne_nil (n / 10))
      | cons c2 cs2 =>
        rw [hh] at hr
        simp only [List.cons_append, List.cons.injEq] at hr
        rw [hr.1] at hh
        exact ih (n / 10) hdiv (by omega) c cs2 hh

theorem takeWhile_digits (ds rest : List Char) (hds : ds.all Char.isDigit = true)
    (hr : restSafe rest) :
    (ds ++ rest).takeWhile Char.isDigit = ds ∧
    (ds ++ rest).dropWhile Char.isDigit = rest := by
  induction ds with
  | nil =>
    cases rest with
    | nil => exact ⟨rfl, rfl⟩
    | cons c cs =>
      have := hr c cs rfl
      simp [List.takeWhile_cons, List.dropWhile_cons, this]
  | cons d ds ih =>
    simp only [List.all_cons, Bool.and_eq_true] at hds
    have := ih hds.2
    simp [List.takeWhile_cons, List.dropWhile_cons, hds.1, this.1, this.2]

theorem natRepr_cons (n : Nat) :
    ∃ c cs, natRepr n = c :: cs ∧ c.isDigit = true := by
  cases hh : natRepr n with
  | nil => exact absurd hh (natRepr_ne_nil n)
  | cons c cs =>
    refine ⟨c, cs, rfl, ?_⟩
    have := natRepr_all_digit n
    rw [hh] at this
    simp only [List.all_cons, Bool.and_eq_true] at this
    exact this.1

theorem pNumber_round (n : Int) (rest : List Char) (hr : restSafe rest) :
    pNumber (intRepr n ++ rest) = .ok (n, rest) := by
  by_cases hneg : n < 0
  · have h1 : intRepr n = '-' :: natRepr n.natAbs := by simp [intRepr, hneg]
    rw [h1]
    have htk := takeWhile_digits (natRepr n.natAbs) rest
      (natRepr_all_digit n.natAbs) hr
    have hne : ((natRepr n.natAbs ++ rest).takeWhile Char.isDigit).isEmpty
        = false := by
      rw [htk.1]
      cases hh : natRepr n.natAbs with
      | nil => exact absurd hh (natRepr_ne_nil _)
      | cons c cs => rfl
    simp only [List.cons_append, pNumber, if_pos rfl, htk.1, htk.2, hne,
      Bool.false_eq_true, if_false]
    rw [digitsToNat_natRepr]
    have hval : -(n.natAbs : Int) = n := by omega
    rw [hval]
    have hne2 : (natRepr n.natAbs).isEmpty = false := by
      cases hh : natRepr n.natAbs with
      | nil => exact absurd hh (natRepr_ne_nil _)
      | cons c cs => rfl
    simp [hne2]
  · have h1 : intRepr n = natRepr n.toNat := by simp [intRepr, hneg]
    obtain ⟨c, cs, hc, hcd⟩ := natRepr_cons n.toNat
    have hcdash : ¬ c = '-' := by
      intro he
      subst he
      simp at hcd
    have htk := takeWhile_digits (natRepr n.toNat) rest
      (natRepr_all_digit n.toNat) hr
    have hne : ((natRepr n.toNat ++ rest).takeWhile Char.isDigit).isEmpty
        = false := by
      rw [htk.1, hc]
      rfl
    have hlist : c :: (cs ++ rest) = natRepr n.toNat ++ rest := by
      rw [hc, List.cons_append]
    rw [h1, hc]
    simp only [List.cons_append, pNumber, if_neg hcdash]
    rw [hlist, htk.1, htk.2]
    have hne2 : (natRepr n.toNat).isEmpty = false := by
      rw [hc]
      rfl
    simp only [hne2, Bool.false_eq_true, if_false]
    rw [digitsToNat_natRepr]
    have hcast : (n.toNat : Int) = n := by omega
    rw [hcast]

/-! ## JSON string escape lemmas -/

theorem hexVal_hexDigitChar : ∀ n < 16, hexVal (hexDigitChar n) = some n := by
  decide

theorem hex4_decomp (n : Nat) (h : n < 65536) :
    hex4 (n / 4096 % 16) (n / 256 % 16) (n / 16 % 16) (n % 16) = n := by
  simp only [hex4]
  omega

theorem pString_uEsc (n : Nat) (hn : n < 65536) (hval : n < 55296 ∨ 57343 < n)
    (tail : List Char) :
    pString (uEsc n ++ tail) =
      (match pString tail with
       | .ok (s, r) => .ok (Char.ofNat n :: s, r)
       | .error u => .error u) := by
  have hu : uEsc n ++ tail = '\\' :: 'u' :: hexDigitChar (n / 4096 % 16) ::
      hexDigitChar (n / 256 % 16) :: hexDigitChar (n / 16 % 16) ::
      hexDigitChar (n % 16) :: tail := by
    simp [uEsc]
  have e1 : hexVal (hexDigitChar (n / 4096 % 16)) = some (n / 4096 % 16) :=
    hexVal_hexDigitChar _ (by omega)
  have e2 : hexVal (hexDigitChar (n / 256 % 16)) = some (n / 256 % 16) :=
    hexVal_hexDigitChar _ (by omega)
  have e3 : hexVal (hexDigitChar (n / 16 % 16)) = some (n / 16 % 16) :=
    hexVal_hexDigitChar _ (by omega)
  have e4 : hexVal (hexDigitChar (n % 16)) = some (n % 16) :=
    hexVal_hexDigitChar _ (by omega)
  have hcond : (decide (n < 55296) || decide (57344 ≤ n)) = true := by
    rcases hval with h | h
    · simp [h]
    · simp [show 57344 ≤ n by omega]
  rw [hu, pString.eq_def]
  simp only [reduceIte]
  rw [pEscape.eq_def]
  simp [e1, e2, e3, e4, hex4_decomp n hn, hcond]

theorem char_valid_nat (c : Char) :
    c.toNat < 55296 ∨ (57343 < c.toNat ∧ c.toNat < 1114112) := c.valid

theorem pString_surrogatePair (k : Nat) (hk : k < 1048576) (tail : List Char) :
    pString (uEsc (55296 + k / 1024) ++ (uEsc (56320 + k % 1024) ++ tail)) =
      (match pString tail with
       | .ok (s, r) => .ok (Char.ofNat (65536 + k) :: s, r)
       | .error u => .error u) := by
  have hdiv : k / 1024 < 1024 := by omega
  have hmod : k % 1024 < 1024 := by omega
  have hu : uEsc (55296 + k / 1024) ++ (uEsc (56320 + k % 1024) ++ tail) =
      '\\' :: 'u' :: hexDigitChar ((55296 + k / 1024) / 4096 % 16) ::
      hexDigitChar ((55296 + k / 1024) / 256 % 16) ::
      hexDigitChar ((55296 + k / 1024) / 16 % 16) ::
      hexDigitChar ((55296 + k / 1024) % 16) ::
      (uEsc (56320 + k % 1024) ++ tail) := by
    simp [uEsc]
  have e1 : hexVal (hexDigitChar ((55296 + k / 1024) / 4096 % 16)) =
      some ((55296 + k / 1024) / 4096 % 16) := hexVal_hexDigitChar _ (by omega)
  have e2 : hexVal (hexDigitChar ((55296 + k / 1024) / 256 % 16)) =
      some ((55296 + k / 1024) / 256 % 16) := hexVal_hexDigitChar _ (by omega)
  have e3 : hexVal (hexDigitChar ((55296 + k / 1024) / 16 % 16)) =
      some ((55296 + k / 1024) / 16 % 16) := hexVal_hexDigitChar _ (by omega)
  have e4 : hexVal (hexDigitChar ((55296 + k / 1024) % 16)) =
      some ((55296 + k / 1024) % 16) := hexVal_hexDigitChar _ (by omega)
  have hdec : hex4 ((55296 + k / 1024) / 4096 % 16) ((55296 + k / 1024) / 256 % 16)
      ((55296 + k / 1024) / 16 % 16) ((55296 + k / 1024) % 16) = 55296 + k / 1024 :=
    hex4_decomp _ (by omega)
  have hcond1 : (decide (55296 + k / 1024 < 55296) ||
      decide (57344 ≤ 55296 + k / 1024)) = false := by
    simp
    omega
  have hcond2 : 55296 + k / 1024 < 56320 := by omega
  rw [hu, pString.eq_def]
  simp only [reduceIte]
  rw [pEscape.eq_def]
  simp only [e1, e2, e3, e4, hdec, hcond1, Bool.false_eq_true, if_false,
    hcond2, if_pos, if_true]
  have hu2 : uEsc (56320 + k % 1024) ++ tail =
      '\\' :: 'u' :: hexDigitChar ((56320 + k % 1024) / 4096 % 16) ::
      hexDigitChar ((56320 + k % 1024) / 256 % 16) ::
      hexDigitChar ((56320 + k % 1024) / 16 % 16) ::
      hexDigitChar ((56320 + k % 1024) % 16) :: tail := by
    simp [uEsc]
  have e5 : hexVal (hexDigitChar ((56320 + k % 1024) / 4096 % 16)) =
      some ((56320 + k % 1024) / 4096 % 16) := hexVal_hexDigitChar _ (by omega)
  have e6 : hexVal (hexDigitChar ((56320 + k % 1024) / 256 % 16)) =
      some ((56320 + k % 1024) / 256 % 16) := hexVal_hexDigitChar _ (by omega)
  have e7 : hexVal (hexDigitChar ((56320 + k % 1024) / 16 % 16)) =
      some ((56320 + k % 1024) / 16 % 16) := hexVal_hexDigitChar _ (by omega)
  have e8 : hexVal (hexDigitChar ((56320 + k % 1024) % 16)) =
      some ((56320 + k % 1024) % 16) := hexVal_hexDigitChar _ (by omega)
  have hdec2 : hex4 ((56320 + k % 1024) / 4096 % 16) ((56320 + k % 1024) / 256 % 16)
      ((56320 + k % 1024) / 16 % 16) ((56320 + k % 1024) % 16) = 56320 + k % 1024 :=
    hex4_decomp _ (by omega)
  have hcond3 : (decide (56320 ≤ 56320 + k % 1024) &&
      decide (56320 + k % 1024 < 57344)) = true := by
    simp
    omega
  have harg : 65536 + (55296 + k / 1024 - 55296) * 1024 +
      (56320 + k % 1024 - 56320) = 65536 + k := by omega
  rw [hu2, pLowSurrogate.eq_def]
  simp only [e5, e6, e7, e8, hdec2, hcond3, if_true, harg]
  simp

theorem pString_round : (s : List Char) → ∀ rest,
    pString (escList s ++ '"' :: rest) = .ok (s, rest)
  | [] => by
    intro rest
    simp [escList, pString]
  | c :: cs => by
    intro rest
    have ih := pString_round cs rest
    show pString ((escChar c ++ escList cs) ++ '"' :: rest) = .ok (c :: cs, rest)
    rw [List.append_assoc]
    by_cases h1 : c = '"'
    · subst h1
      simp [escChar, pString, pEscape, shortUnescape, ih]
    by_cases h2 : c = '\\'
    · subst h2
      simp [escChar, pString, pEscape, shortUnescape, ih]
    by_cases h3 : c = '\x08'
    · subst h3
      simp [escChar, pString, pEscape, shortUnescape, ih]
    by_cases h4 : c = '\x0c'
    · subst h4
      simp [escChar, pString, pEscape, shortUnescape, ih]
    by_cases h5 : c = '\n'
    · subst h5
      simp [escChar, pString, pEscape, shortUnescape, ih]
    by_cases h6 : c = '\r'
    · subst h6
      simp [escChar, pString, pEscape, shortUnescape, ih]
    by_cases h7 : c = '\t'
    · subst h7
      simp [escChar, pString, pEscape, shortUnescape, ih]
    by_cases h8 : (decide (c.toNat < 32) || decide (126 < c.toNat)) = true
    · have hesc : escChar c =
          if c.toNat < 65536 then uEsc c.toNat
          else uEsc (55296 + (c.toNat - 65536) / 1024) ++
            uEsc (56320 + (c.toNat - 65536) % 1024) := by
        simp [escChar, h1, h2, h3, h4, h5, h6, h7, h8]
      have hval2 : c.toNat < 55296 ∨ 57343 < c.toNat :=
        (char_valid_nat c).imp id And.left
      by_cases h9 : c.toNat < 65536
      · rw [hesc, if_pos h9,
          pString_uEsc c.toNat h9 hval2 (escList cs ++ '"' :: rest)]
        simp [ih, Char.ofNat_toNat]
      · have hup : c.toNat < 1114112 := by
          rcases char_valid_nat c with h | h
          · omega
          · exact h.2
        have hk : c.toNat - 65536 < 1048576 := by omega
        rw [hesc, if_neg h9, List.append_assoc,
          pString_surrogatePair (c.toNat - 65536) hk (escList cs ++ '"' :: rest)]
        have harg2 : 65536 + (c.toNat - 65536) = c.toNat := by omega
        simp [ih, harg2, Char.ofNat_toNat]
    · have hesc : escChar c = [c] := by
        simp [escChar, h1, h2, h3, h4, h5, h6, h7, h8]
      have hlow : ¬ c.toNat < 32 := by
        simp at h8
        omega
      rw [hesc]
      simp [pString, h1, h2, hlow, ih]

/-! ## Serialization shape lemmas -/

theorem jfuel_pos : ∀ v : JVal, 1 ≤ jfuel v := by
  intro v
  cases v <;> simp [jfuel] <;> omega

theorem afuel_pos : ∀ xs : JArr, 1 ≤ afuel xs := by
  intro xs
  cases xs <;> simp [afuel] <;> omega

theorem ofuel_pos : ∀ ms : JObj, 1 ≤ ofuel ms := by
  intro ms
  cases ms <;> simp [ofuel] <;> omega

theorem ws_not_digit (c : Char) (h : isJsonWs c = true) : c.isDigit = false := by
  cases hd : c.isDigit with
  | false => rfl
  | true => rw [isDigit_not_ws c hd] at h; exact absurd h Bool.false_ne_true

theorem wsJ_nil : WsJ [] := by intro c hc; simp at hc

theorem wsJ_indent (lvl : Nat) : WsJ (indentPad lvl) := by
  intro c hc
  have := List.eq_of_mem_replicate hc
  subst this
  rfl

theorem wsJ_cons_nl (l : List Char) (h : WsJ l) : WsJ ('\n' :: l) := by
  intro c hc
  rcases List.mem_cons.mp hc with h1 | h1
  · subst h1; rfl
  · exact h c h1

theorem wsJ_single_nl : WsJ ['\n'] := wsJ_cons_nl [] wsJ_nil

theorem wsJ_single_sp : WsJ [' '] := by
  intro c hc
  simp at hc
  subst hc
  rfl

theorem restSafe_nil : restSafe [] := by
  intro c cs h
  exact absurd h (by simp)

theorem restSafe_cons (c : Char) (cs : List Char) (h : c.isDigit = false) :
    restSafe (c :: cs) := by
  intro c2 cs2 he
  cases he
  exact h

theorem restSafe_ws_append (mid tail : List Char) (hmid : WsJ mid)
    (h : restSafe tail) : restSafe (mid ++ tail) := by
  cases mid with
  | nil => simpa using h
  | cons m ms =>
    apply restSafe_cons
    exact ws_not_digit m (hmid m (List.mem_cons_self m ms))

theorem serItems_decomp (lvl : Nat) (v : JVal) (xs : JArr) :
    ∃ t, serItems lvl (.acons v xs) = serVal lvl v ++ t := by
  cases xs with
  | anil => exact ⟨[], by simp [serItems]⟩
  | acons w ys =>
    exact ⟨',' :: '\n' :: (indentPad lvl ++ serItems lvl (.acons w ys)), rfl⟩

theorem serVal_head (lvl : Nat) (v : JVal) :
    ∃ c cs, serVal lvl v = c :: cs ∧ isJsonWs c = false ∧ ¬ c = ']' := by
  cases v with
  | null => exact ⟨'n', _, rfl, by decide, by decide⟩
  | bool b =>
    cases b with
    | true => exact ⟨'t', _, rfl, by decide, by decide⟩
    | false => exact ⟨'f', _, rfl, by decide, by decide⟩
  | num n =>
    by_cases hn : n < 0
    · refine ⟨'-', natRepr n.natAbs, ?_, by decide, by decide⟩
      simp [serVal, intRepr, hn]
    · obtain ⟨c, cs, hc, hcd⟩ := natRepr_cons n.toNat
      refine ⟨c, cs, ?_, isDigit_not_ws c hcd, ?_⟩
      · simp [serVal, intRepr, hn, hc]
      · intro he
        subst he
        simp at hcd
  | str s => exact ⟨'"', _, rfl, by decide, by decide⟩
  | arr xs =>
    cases xs with
    | anil => exact ⟨'[', _, rfl, by decide, by decide⟩
    | acons w ys => exact ⟨'[', _, rfl, by decide, by decide⟩
  | obj ms =>
    cases ms with
    | onil => exact ⟨lbr, _, rfl, by decide, by decide⟩
    | ocons k w ns => exact ⟨lbr, _, rfl, by decide, by decide⟩

theorem digit_ne_special (c : Char) (h : c.isDigit = true) :
    ¬ c = '"' ∧ ¬ c = '[' ∧ ¬ c = lbr ∧ ¬ c = 't' ∧ ¬ c = 'f' ∧ ¬ c = 'n' := by
  refine ⟨?_, ?_, ?_, ?_, ?_, ?_⟩ <;> intro he <;> subst he <;>
    exact absurd h (by decide)

/-! ## Parser-serializer roundtrip -/

theorem serMembers_decomp (lvl : Nat) (k : List Char) (v : JVal) (ns : JObj) :
    ∃ t2, serMembers lvl (.ocons k v ns) = '"' :: (escList k ++ ('"' :: t2)) ∧
      (t2 = ':' :: ' ' :: serVal lvl v ∨
       ∃ t3, t2 = ':' :: ' ' :: (serVal lvl v ++ t3)) := by
  cases ns with
  | onil =>
    refine ⟨':' :: ' ' :: serVal lvl v, ?_, Or.inl rfl⟩
    show serStr k ++ (':' :: ' ' :: serVal lvl v) = _
    simp [serStr]
  | ocons k2 w ns2 =>
    refine ⟨':' :: ' ' :: (serVal lvl v ++
      (',' :: '\n' :: (indentPad lvl ++ serMembers lvl (.ocons k2 w ns2)))),
      ?_, Or.inr ⟨_, rfl⟩⟩
    show (serStr k ++ ':' :: ' ' :: serVal lvl v) ++
      (',' :: '\n' :: (indentPad lvl ++ serMembers lvl (.ocons k2 w ns2))) = _
    simp [serStr]

mutual
theorem pValue_ser : (v : JVal) → ∀ lvl fuel pre rest, jfuel v ≤ fuel →
    WsJ pre → restSafe rest →
    pValue fuel (pre ++ (serVal lvl v ++ rest)) = .ok (v, rest)
  | .null => by
    intro lvl fuel pre rest hf hpre hrest
    obtain ⟨f, rfl⟩ : ∃ f, fuel = f + 1 :=
      ⟨fuel - 1, by have := jfuel_pos JVal.null; omega⟩
    simp only [pValue]
    rw [dropWhile_append_all _ pre _ hpre]
    have hs : serVal lvl .null ++ rest = 'n' :: 'u' :: 'l' :: 'l' :: rest := rfl
    rw [hs]
    simp [List.dropWhile_cons, isJsonWs]
    intro h
    exact absurd h (by decide)
  | .bool b => by
    intro lvl fuel pre rest hf hpre hrest
    obtain ⟨f, rfl⟩ : ∃ f, fuel = f + 1 :=
      ⟨fuel - 1, by have := jfuel_pos (JVal.bool b); omega⟩
    simp only [pValue]
    rw [dropWhile_append_all _ pre _ hpre]
    cases b with
    | true =>
      have hs : serVal lvl (.bool true) ++ rest =
          't' :: 'r' :: 'u' :: 'e' :: rest := rfl
      rw [hs]
      simp [List.dropWhile_cons, isJsonWs]
      intro h
      exact absurd h (by decide)
    | false =>
      have hs : serVal lvl (.bool false) ++ rest =
          'f' :: 'a' :: 'l' :: 's' :: 'e' :: rest := rfl
      rw [hs]
      simp [List.dropWhile_cons, isJsonWs]
      intro h
      exact absurd h (by decide)
  | .num n => by
    intro lvl fuel pre rest hf hpre hrest
    obtain ⟨f, rfl⟩ : ∃ f, fuel = f + 1 :=
      ⟨fuel - 1, by have := jfuel_pos (JVal.num n); omega⟩
    simp only [pValue]
    rw [dropWhile_append_all _ pre _ hpre]
    have hhead : ∃ c0 cs0, intRepr n = c0 :: cs0 ∧ isJsonWs c0 = false ∧
        (c0 = '-' ∨ c0.isDigit = true) ∧ ¬ c0 = '"' ∧ ¬ c0 = '[' ∧
        ¬ c0 = lbr ∧ ¬ c0 = 't' ∧ ¬ c0 = 'f' ∧ ¬ c0 = 'n' := by
      by_cases hn : n < 0
      · refine ⟨'-', natRepr n.natAbs, by simp [intRepr, hn], by decide,
          Or.inl rfl, by decide, by decide, by decide, by decide, by decide,
          by decide⟩
      · obtain ⟨c0, cs0, hc, hcd⟩ := natRepr_cons n.toNat
        obtain ⟨k1, k2, k3, k4, k5, k6⟩ := digit_ne_special c0 hcd
        refine ⟨c0, cs0, by simp [intRepr, hn, hc], isDigit_not_ws c0 hcd,
          Or.inr hcd, k1, ?_, k3, k4, k5, k6⟩
        intro he
        subst he
        simp at hcd
    obtain ⟨c0, cs0, hc0, hws0, hnum0, k1, k2, k3, k4, k5, k6⟩ := hhead
    have hs : serVal lvl (.num n) ++ rest = c0 :: (cs0 ++ rest) := by
      simp [serVal, hc0]
    rw [hs]
    simp only [List.dropWhile_cons, hws0, Bool.false_eq_true, if_false]
    simp only [k1, k2, k3, k4, k5, k6, if_false]
    have hb : (decide (c0 = '-') || c0.isDigit) = true := by
      rcases hnum0 with h | h
      · simp [h]
      · simp [h]
    rw [if_pos hb]
    have hback : c0 :: (cs0 ++ rest) = intRepr n ++ rest := by
      simp [hc0]
    rw [hback, pNumber_round n rest hrest]
  | .str s => by
    intro lvl fuel pre rest hf hpre hrest
    obtain ⟨f, rfl⟩ : ∃ f, fuel = f + 1 :=
      ⟨fuel - 1, by have := jfuel_pos (JVal.str s); omega⟩
    simp only [pValue]
    rw [dropWhile_append_all _ pre _ hpre]
    have hs : serVal lvl (.str s) ++ rest =
        '"' :: (escList s ++ ('"' :: rest)) := by
      simp [serVal, serStr]
    rw [hs]
    simp [List.dropWhile_cons, isJsonWs, pString_round s rest]
  | .arr xs => by
    intro lvl fuel pre rest hf hpre hrest
    obtain ⟨f, rfl⟩ : ∃ f, fuel = f + 1 :=
      ⟨fuel - 1, by have := jfuel_pos (JVal.arr xs); omega⟩
    simp only [pValue]
    rw [dropWhile_append_all _ pre _ hpre]
    cases xs with
    | anil =>
      have hs : serVal lvl (.arr .anil) ++ rest = '[' :: (']' :: rest) := rfl
      rw [hs]
      simp [List.dropWhile_cons, isJsonWs]
    | acons w ys =>
      have hs : serVal lvl (.arr (.acons w ys)) ++ rest =
          '[' :: ('\n' :: (indentPad (lvl + 1) ++
            (serItems (lvl + 1) (.acons w ys) ++
              ('\n' :: (indentPad lvl ++ (']' :: rest)))))) := by
        show ('[' :: '\n' :: (indentPad (lvl + 1) ++
          serItems (lvl + 1) (JArr.acons w ys) ++
          '\n' :: (indentPad lvl ++ [']']))) ++ rest = _
        simp
      rw [hs]
      obtain ⟨c0, cs0, hc0, hws0, hne0⟩ := serVal_head (lvl + 1) w
      obtain ⟨t, ht⟩ := serItems_decomp (lvl + 1) w ys
      have hitems : serItems (lvl + 1) (.acons w ys) = c0 :: (cs0 ++ t) := by
        rw [ht, hc0]
        simp
      have hdw : List.dropWhile isJsonWs
          ('\n' :: (indentPad (lvl + 1) ++
            (serItems (lvl + 1) (.acons w ys) ++
              ('\n' :: (indentPad lvl ++ (']' :: rest)))))) =
          c0 :: ((cs0 ++ t) ++ ('\n' :: (indentPad lvl ++ (']' :: rest)))) := by
        simp only [List.dropWhile_cons,
          show isJsonWs '\n' = true from rfl, if_true]
        rw [dropWhile_append_all _ _ _ (wsJ_indent (lvl + 1)), hitems]
        simp [List.dropWhile_cons, hws0]
      have hfa : afuel (.acons w ys) ≤ f := by
        simp only [jfuel] at hf
        omega
      have hpi : pItems f
          (c0 :: (cs0 ++ (t ++ ('\n' :: (indentPad lvl ++ (']' :: rest)))))) =
          .ok (.acons w ys, rest) := by
        have hlist : c0 :: (cs0 ++ (t ++ ('\n' :: (indentPad lvl ++ (']' :: rest))))) =
            [] ++ (serItems (lvl + 1) (.acons w ys) ++
              (('\n' :: indentPad lvl) ++ (']' :: rest))) := by
          rw [hitems]
          simp
        rw [hlist]
        exact pItems_ser (.acons w ys) (by simp) (lvl + 1) f []
          ('\n' :: indentPad lvl) rest hfa wsJ_nil (wsJ_cons_nl _ (wsJ_indent lvl))
      have houter : List.dropWhile isJsonWs
          ('[' :: ('\n' :: (indentPad (lvl + 1) ++
            (serItems (lvl + 1) (.acons w ys) ++
              ('\n' :: (indentPad lvl ++ (']' :: rest))))))) =
          '[' :: ('\n' :: (indentPad (lvl + 1) ++
            (serItems (lvl + 1) (.acons w ys) ++
              ('\n' :: (indentPad lvl ++ (']' :: rest)))))) := by
        rw [List.dropWhile_cons]
        simp [isJsonWs]
      simp only [houter]
      simp [hdw, hne0, hpi]
  | .obj ms => by
    intro lvl fuel pre rest hf hpre hrest
    obtain ⟨f, rfl⟩ : ∃ f, fuel = f + 1 :=
      ⟨fuel - 1, by have := jfuel_pos (JVal.obj ms); omega⟩
    simp only [pValue]
    rw [dropWhile_append_all _ pre _ hpre]
    cases ms with
    | onil =>
      have hs : serVal lvl (.obj .onil) ++ rest = lbr :: (rbr :: rest) := rfl
      rw [hs]
      have h1 : List.dropWhile isJsonWs (lbr :: (rbr :: rest)) =
          lbr :: (rbr :: rest) := by
        rw [List.dropWhile_cons, show isJsonWs lbr = false from rfl]
        simp
      rw [h1]
      have h2 : List.dropWhile isJsonWs (rbr :: rest) = rbr :: rest := by
        rw [List.dropWhile_cons, show isJsonWs rbr = false from rfl]
        simp
      simp [show ¬(lbr = '"') from by decide, show ¬(lbr = '[') from by decide,
        h2]
    | ocons k v ns =>
      have hs : serVal lvl (.obj (.ocons k v ns)) ++ rest =
          lbr :: ('\n' :: (indentPad (lvl + 1) ++
            (serMembers (lvl + 1) (.ocons k v ns) ++
              ('\n' :: (indentPad lvl ++ (rbr :: rest)))))) := by
        show (lbr :: '\n' :: (indentPad (lvl + 1) ++
          serMembers (lvl + 1) (JObj.ocons k v ns) ++
          '\n' :: (indentPad lvl ++ [rbr]))) ++ rest = _
        simp
      rw [hs]
      obtain ⟨t2, hmem, _⟩ := serMembers_decomp (lvl + 1) k v ns
      have hdw : List.dropWhile isJsonWs
          ('\n' :: (indentPad (lvl + 1) ++
            (serMembers (lvl + 1) (.ocons k v ns) ++
              ('\n' :: (indentPad lvl ++ (rbr :: rest)))))) =
          '"' :: ((escList k ++ ('"' :: t2)) ++
            ('\n' :: (indentPad lvl ++ (rbr :: rest)))) := by
        simp only [List.dropWhile_cons,
          show isJsonWs '\n' = true from rfl, if_true]
        rw [dropWhile_append_all _ _ _ (wsJ_indent (lvl + 1)), hmem]
        simp [List.dropWhile_cons, show isJsonWs '"' = false from rfl]
      have hfo : ofuel (.ocons k v ns) ≤ f := by
        simp only [jfuel] at hf
        omega
      have hpm : pMembers f
          ('"' :: (escList k ++ ('"' :: (t2 ++
            ('\n' :: (indentPad lvl ++ (rbr :: rest))))))) =
          .ok (.ocons k v ns, rest) := by
        have hlist : '"' :: (escList k ++ ('"' :: (t2 ++
            ('\n' :: (indentPad lvl ++ (rbr :: rest)))))) =
            [] ++ (serMembers (lvl + 1) (.ocons k v ns) ++
              (('\n' :: indentPad lvl) ++ (rbr :: rest))) := by
          rw [hmem]
          simp
        rw [hlist]
        exact pMembers_ser (.ocons k v ns) (by simp) (lvl + 1) f []
          ('\n' :: indentPad lvl) rest hfo wsJ_nil (wsJ_cons_nl _ (wsJ_indent lvl))
      have houter : List.dropWhile isJsonWs
          (lbr :: ('\n' :: (indentPad (lvl + 1) ++
            (serMembers (lvl + 1) (.ocons k v ns) ++
              ('\n' :: (indentPad lvl ++ (rbr :: rest))))))) =
          lbr :: ('\n' :: (indentPad (lvl + 1) ++
            (serMembers (lvl + 1) (.ocons k v ns) ++
              ('\n' :: (indentPad lvl ++ (rbr :: rest)))))) := by
        rw [List.dropWhile_cons, show isJsonWs lbr = false from rfl]
        simp
      simp only [houter]
      simp [hdw, hpm, show ¬(lbr = '"') from by decide,
        show ¬(lbr = '[') from by decide, show ¬('"' = rbr) from by decide]
theorem pItems_ser : (xs : JArr) → xs ≠ .anil → ∀ lvl fuel pre mid out,
    afuel xs ≤ fuel → WsJ pre → WsJ mid →
    pItems fuel (pre ++ (serItems lvl xs ++ (mid ++ (']' :: out)))) =
      .ok (xs, out)
  | .anil => by intro h; exact absurd rfl h
  | .acons v rest0 => by
    intro _ lvl fuel pre mid out hf hpre hmid
    obtain ⟨f, rfl⟩ : ∃ f, fuel = f + 1 :=
      ⟨fuel - 1, by have := afuel_pos (.acons v rest0); omega⟩
    simp only [pItems]
    cases rest0 with
    | anil =>
      have hser : serItems lvl (.acons v .anil) = serVal lvl v := by
        simp [serItems]
      rw [hser]
      have hjv : jfuel v ≤ f := by
        simp only [afuel] at hf
        omega
      have hrs : restSafe (mid ++ (']' :: out)) :=
        restSafe_ws_append mid _ hmid (restSafe_cons _ _ (by decide))
      rw [pValue_ser v lvl f pre (mid ++ (']' :: out)) hjv hpre hrs]
      have hdw2 : List.dropWhile isJsonWs (mid ++ (']' :: out)) = ']' :: out := by
        rw [dropWhile_append_all _ mid _ hmid, List.dropWhile_cons]
        simp [show isJsonWs ']' = false from rfl]
      simp [hdw2]
    | acons w ys =>
      have hser : serItems lvl (.acons v (.acons w ys)) ++ (mid ++ (']' :: out)) =
          serVal lvl v ++ (',' :: ('\n' :: (indentPad lvl ++
            (serItems lvl (.acons w ys) ++ (mid ++ (']' :: out)))))) := by
        show (serVal lvl v ++ ',' :: '\n' ::
          (indentPad lvl ++ serItems lvl (.acons w ys))) ++ (mid ++ (']' :: out)) = _
        simp
      rw [hser]
      have hjv : jfuel v ≤ f := by
        simp only [afuel] at hf
        omega
      have hrs : restSafe (',' :: ('\n' :: (indentPad lvl ++
          (serItems lvl (.acons w ys) ++ (mid ++ (']' :: out)))))) :=
        restSafe_cons _ _ (by decide)
      rw [pValue_ser v lvl f pre _ hjv hpre hrs]
      have hdw2 : List.dropWhile isJsonWs (',' :: ('\n' :: (indentPad lvl ++
          (serItems lvl (.acons w ys) ++ (mid ++ (']' :: out)))))) =
          ',' :: ('\n' :: (indentPad lvl ++
            (serItems lvl (.acons w ys) ++ (mid ++ (']' :: out))))) := by
        rw [List.dropWhile_cons]
        simp [show isJsonWs ',' = false from rfl]
      have hfa2 : afuel (.acons w ys) ≤ f := by
        simp only [afuel] at hf ⊢
        omega
      have hrec : pItems f ('\n' :: (indentPad lvl ++
          (serItems lvl (.acons w ys) ++ (mid ++ (']' :: out))))) =
          .ok (.acons w ys, out) := by
        have hlist : '\n' :: (indentPad lvl ++
            (serItems lvl (.acons w ys) ++ (mid ++ (']' :: out)))) =
            ('\n' :: indentPad lvl) ++
              (serItems lvl (.acons w ys) ++ (mid ++ (']' :: out))) := by
          simp
        rw [hlist]
        exact pItems_ser (.acons w ys) (by simp) lvl f ('\n' :: indentPad lvl)
          mid out hfa2 (wsJ_cons_nl _ (wsJ_indent lvl)) hmid
      simp [hdw2, hrec]
theorem pMembers_ser : (ms : JObj) → ms ≠ .onil → ∀ lvl fuel pre mid out,
    ofuel ms ≤ fuel → WsJ pre → WsJ mid →
    pMembers fuel (pre ++ (serMembers lvl ms ++ (mid ++ (rbr :: out)))) =
      .ok (ms, out)
  | .onil => by intro h; exact absurd rfl h
  | .ocons k v rest0 => by
    intro _ lvl fuel pre mid out hf hpre hmid
    obtain ⟨f, rfl⟩ : ∃ f, fuel = f + 1 :=
      ⟨fuel - 1, by have := ofuel_pos (.ocons k v rest0); omega⟩
    simp only [pMembers]
    have hjv : jfuel v ≤ f := by
      simp only [ofuel] at hf
      omega
    rw [show rbr = '\x7d' from rfl]
    cases rest0 with
    | onil =>
      have hser : serMembers lvl (.ocons k v .onil) ++ (mid ++ ('\x7d' :: out)) =
          '"' :: (escList k ++ ('"' :: (':' :: (' ' ::
            (serVal lvl v ++ (mid ++ ('\x7d' :: out))))))) := by
        show (serStr k ++ ':' :: ' ' :: serVal lvl v) ++ (mid ++ ('\x7d' :: out)) = _
        simp [serStr]
      rw [hser, dropWhile_append_all _ pre _ hpre]
      have hq : List.dropWhile isJsonWs ('"' :: (escList k ++ ('"' :: (':' :: (' ' ::
          (serVal lvl v ++ (mid ++ ('\x7d' :: out)))))))) =
          '"' :: (escList k ++ ('"' :: (':' :: (' ' ::
            (serVal lvl v ++ (mid ++ ('\x7d' :: out))))))) := by
        rw [List.dropWhile_cons]
        simp [show isJsonWs '"' = false from rfl]
      rw [hq]
      have hv : pValue f (' ' :: (serVal lvl v ++ (mid ++ ('\x7d' :: out)))) =
          .ok (v, mid ++ ('\x7d' :: out)) := by
        have hl : ' ' :: (serVal lvl v ++ (mid ++ ('\x7d' :: out))) =
            [' '] ++ (serVal lvl v ++ (mid ++ ('\x7d' :: out))) := rfl
        rw [hl]
        exact pValue_ser v lvl f [' '] _ hjv wsJ_single_sp
          (restSafe_ws_append mid _ hmid (restSafe_cons _ _ (by decide)))
      have hdwm : List.dropWhile isJsonWs (mid ++ ('\x7d' :: out)) = '\x7d' :: out := by
        rw [dropWhile_append_all _ mid _ hmid, List.dropWhile_cons]
        simp [show isJsonWs '\x7d' = false from rfl]
      simp [pString_round k (':' :: (' ' :: (serVal lvl v ++ (mid ++ ('\x7d' :: out))))),
        show isJsonWs ':' = false from rfl, List.dropWhile_cons, hv, hdwm]
    | ocons k2 w ns =>
      have hser : serMembers lvl (.ocons k v (.ocons k2 w ns)) ++
          (mid ++ ('\x7d' :: out)) =
          '"' :: (escList k ++ ('"' :: (':' :: (' ' ::
            (serVal lvl v ++ (',' :: ('\n' :: (indentPad lvl ++
              (serMembers lvl (.ocons k2 w ns) ++ (mid ++ ('\x7d' :: out))))))))))) := by
        show ((serStr k ++ ':' :: ' ' :: serVal lvl v) ++ ',' :: '\n' ::
          (indentPad lvl ++ serMembers lvl (.ocons k2 w ns))) ++
          (mid ++ ('\x7d' :: out)) = _
        simp [serStr]
      rw [hser, dropWhile_append_all _ pre _ hpre]
      have hq : List.dropWhile isJsonWs ('"' :: (escList k ++ ('"' :: (':' :: (' ' ::
          (serVal lvl v ++ (',' :: ('\n' :: (indentPad lvl ++
            (serMembers lvl (.ocons k2 w ns) ++ (mid ++ ('\x7d' :: out)))))))))))) =
          '"' :: (escList k ++ ('"' :: (':' :: (' ' ::
            (serVal lvl v ++ (',' :: ('\n' :: (indentPad lvl ++
              (serMembers lvl (.ocons k2 w ns) ++ (mid ++ ('\x7d' :: out))))))))))) := by
        rw [List.dropWhile_cons]
        simp [show isJsonWs '"' = false from rfl]
      rw [hq]
      have hv : pValue f (' ' :: (serVal lvl v ++ (',' :: ('\n' :: (indentPad lvl ++
          (serMembers lvl (.ocons k2 w ns) ++ (mid ++ ('\x7d' :: out)))))))) =
          .ok (v, ',' :: ('\n' :: (indentPad lvl ++
            (serMembers lvl (.ocons k2 w ns) ++ (mid ++ ('\x7d' :: out)))))) := by
        have hl : ' ' :: (serVal lvl v ++ (',' :: ('\n' :: (indentPad lvl ++
            (serMembers lvl (.ocons k2 w ns) ++ (mid ++ ('\x7d' :: out))))))) =
            [' '] ++ (serVal lvl v ++ (',' :: ('\n' :: (indentPad lvl ++
              (serMembers lvl (.ocons k2 w ns) ++ (mid ++ ('\x7d' :: out))))))) := rfl
        rw [hl]
        exact pValue_ser v lvl f [' '] _ hjv wsJ_single_sp
          (restSafe_cons _ _ (by decide))
      have hfo2 : ofuel (.ocons k2 w ns) ≤ f := by
        simp only [ofuel] at hf ⊢
        omega
      have hrec : pMembers f ('\n' :: (indentPad lvl ++
          (serMembers lvl (.ocons k2 w ns) ++ (mid ++ ('\x7d' :: out))))) =
          .ok (.ocons k2 w ns, out) := by
        have hlist : '\n' :: (indentPad lvl ++
            (serMembers lvl (.ocons k2 w ns) ++ (mid ++ ('\x7d' :: out)))) =
            ('\n' :: indentPad lvl) ++
              (serMembers lvl (.ocons k2 w ns) ++ (mid ++ ('\x7d' :: out))) := rfl
        rw [hlist]
        exact pMembers_ser (.ocons k2 w ns) (by simp) lvl f ('\n' :: indentPad lvl)
          mid out hfo2 (wsJ_cons_nl _ (wsJ_indent lvl)) hmid
      simp [pString_round k (':' :: (' ' :: (serVal lvl v ++ (',' :: ('\n' ::
        (indentPad lvl ++ (serMembers lvl (.ocons k2 w ns) ++
          (mid ++ ('\x7d' :: out))))))))),
        show isJsonWs ':' = false from rfl, List.dropWhile_cons, hv,
        show isJsonWs ',' = false from rfl, hrec]
end

theorem serVal_len_pos (lvl : Nat) (v : JVal) : 1 ≤ (serVal lvl v).length := by
  obtain ⟨c, cs, hc, _, _⟩ := serVal_head lvl v
  rw [hc]
  simp

mutual
theorem jfuel_le : (v : JVal) → ∀ lvl, jfuel v ≤ 2 * (serVal lvl v).length
  | .null => by intro lvl; simp [jfuel, serVal]
  | .bool b => by cases b <;> intro lvl <;> simp [jfuel, serVal]
  | .num n => by
    intro lvl
    have := serVal_len_pos lvl (.num n)
    simp only [jfuel]
    omega
  | .str s => by
    intro lvl
    have := serVal_len_pos lvl (.str s)
    simp only [jfuel]
    omega
  | .arr xs => by
    intro lvl
    cases xs with
    | anil => simp [jfuel, afuel, serVal]
    | acons w ys =>
      have h1 := afuel_le (.acons w ys) (lvl + 1) (by simp)
      have hlen : (serVal lvl (.arr (.acons w ys))).length =
          (serItems (lvl + 1) (.acons w ys)).length +
            (indentPad (lvl + 1)).length + (indentPad lvl).length + 4 := by
        show ('[' :: '\n' :: (indentPad (lvl + 1) ++
          serItems (lvl + 1) (JArr.acons w ys) ++
          '\n' :: (indentPad lvl ++ [']']))).length = _
        simp
        omega
      simp only [jfuel, hlen]
      omega
  | .obj ms => by
    intro lvl
    cases ms with
    | onil => simp [jfuel, ofuel, serVal]
    | ocons k w ns =>
      have h1 := ofuel_le (.ocons k w ns) (lvl + 1) (by simp)
      have hlen : (serVal lvl (.obj (.ocons k w ns))).length =
          (serMembers (lvl + 1) (.ocons k w ns)).length +
            (indentPad (lvl + 1)).length + (indentPad lvl).length + 4 := by
        show (lbr :: '\n' :: (indentPad (lvl + 1) ++
          serMembers (lvl + 1) (JObj.ocons k w ns) ++
          '\n' :: (indentPad lvl ++ [rbr]))).length = _
        simp
        omega
      simp only [jfuel, hlen]
      omega
theorem afuel_le : (xs : JArr) → ∀ lvl, xs ≠ .anil →
    afuel xs ≤ 2 * (serItems lvl xs).length + 2
  | .anil => by intro lvl h; exact absurd rfl h
  | .acons v ys => by
    intro lvl _
    have hv := jfuel_le v lvl
    cases ys with
    | anil =>
      have hser : serItems lvl (.acons v .anil) = serVal lvl v := by
        simp [serItems]
      rw [hser]
      simp only [afuel]
      omega
    | acons w ys2 =>
      have h2 := afuel_le (.acons w ys2) lvl (by simp)
      simp only [afuel] at h2
      have hlen : (serItems lvl (.acons v (.acons w ys2))).length =
          (serVal lvl v).length + (indentPad lvl).length +
            (serItems lvl (.acons w ys2)).length + 2 := by
        show (serVal lvl v ++ ',' :: '\n' ::
          (indentPad lvl ++ serItems lvl (.acons w ys2))).length = _
        simp
        omega
      simp only [afuel, hlen]
      omega
theorem ofuel_le : (ms : JObj) → ∀ lvl, ms ≠ .onil →
    ofuel ms ≤ 2 * (serMembers lvl ms).length + 2
  | .onil => by intro lvl h; exact absurd rfl h
  | .ocons k v ns => by
    intro lvl _
    have hv := jfuel_le v lvl
    cases ns with
    | onil =>
      have hlen : (serMembers lvl (.ocons k v .onil)).length =
          (serStr k).length + (serVal lvl v).length + 2 := by
        show (serStr k ++ ':' :: ' ' :: serVal lvl v).length = _
        simp
        omega
      simp only [ofuel, hlen]
      omega
    | ocons k2 w ns2 =>
      have h2 := ofuel_le (.ocons k2 w ns2) lvl (by simp)
      simp only [ofuel] at h2
      have hlen : (serMembers lvl (.ocons k v (.ocons k2 w ns2))).length =
          (serStr k).length + (serVal lvl v).length + (indentPad lvl).length +
            (serMembers lvl (.ocons k2 w ns2)).length + 4 := by
        show ((serStr k ++ ':' :: ' ' :: serVal lvl v) ++ ',' :: '\n' ::
          (indentPad lvl ++ serMembers lvl (.ocons k2 w ns2))).length = _
        simp
        omega
      simp only [ofuel, hlen]
      omega
end

theorem natRepr_last_digit (m : Nat) :
    ∃ c, (natRepr m).getLast? = some c ∧ c.isDigit = true := by
  have hne := natRepr_ne_nil m
  refine ⟨(natRepr m).getLast hne, List.getLast?_eq_getLast _ hne, ?_⟩
  have hmem := List.getLast_mem hne
  exact List.all_eq_true.mp (natRepr_all_digit m) _ hmem

theorem serVal_last (lvl : Nat) (v : JVal) :
    ∃ c, (serVal lvl v).getLast? = some c ∧ isJsonWs c = false := by
  cases v with
  | null => exact ⟨'l', rfl, rfl⟩
  | bool b => cases b with
    | true => exact ⟨'e', rfl, rfl⟩
    | false => exact ⟨'e', rfl, rfl⟩
  | num n =>
    by_cases hn : n < 0
    · obtain ⟨c, hc, hcd⟩ := natRepr_last_digit n.natAbs
      refine ⟨c, ?_, isDigit_not_ws c hcd⟩
      have : serVal lvl (.num n) = ['-'] ++ natRepr n.natAbs := by
        simp [serVal, intRepr, hn]
      rw [this, List.getLast?_append_of_ne_nil _ (natRepr_ne_nil n.natAbs)]
      exact hc
    · obtain ⟨c, hc, hcd⟩ := natRepr_last_digit n.toNat
      refine ⟨c, ?_, isDigit_not_ws c hcd⟩
      have : serVal lvl (.num n) = natRepr n.toNat := by
        simp [serVal, intRepr, hn]
      rw [this]
      exact hc
  | str s =>
    refine ⟨'"', ?_, rfl⟩
    have : serVal lvl (.str s) = ('"' :: escList s) ++ ['"'] := by
      simp [serVal, serStr]
    rw [this, List.getLast?_concat]
  | arr xs =>
    cases xs with
    | anil => exact ⟨']', rfl, rfl⟩
    | acons w ys =>
      refine ⟨']', ?_, rfl⟩
      have : serVal lvl (.arr (.acons w ys)) =
          ('[' :: '\n' :: (indentPad (lvl + 1) ++
            (serItems (lvl + 1) (.acons w ys) ++
              ('\n' :: indentPad lvl)))) ++ [']'] := by
        show '[' :: '\n' :: (indentPad (lvl + 1) ++
          serItems (lvl + 1) (JArr.acons w ys) ++
          '\n' :: (indentPad lvl ++ [']'])) = _
        simp
      rw [this, List.getLast?_concat]
  | obj ms =>
    cases ms with
    | onil => exact ⟨rbr, rfl, rfl⟩
    | ocons k w ns =>
      refine ⟨rbr, ?_, rfl⟩
      have : serVal lvl (.obj (.ocons k w ns)) =
          (lbr :: '\n' :: (indentPad (lvl + 1) ++
            (serMembers (lvl + 1) (.ocons k w ns) ++
              ('\n' :: indentPad lvl)))) ++ [rbr] := by
        show lbr :: '\n' :: (indentPad (lvl + 1) ++
          serMembers (lvl + 1) (JObj.ocons k w ns) ++
          '\n' :: (indentPad lvl ++ [rbr])) = _
        simp
      rw [this, List.getLast?_concat]

theorem stripEnds_eq_self (p : Char → Bool) (l : List Char)
    (hh : ∀ c, l.head? = some c → p c = false)
    (hl : ∀ c, l.getLast? = some c → p c = false) :
    stripEnds p l = l := by
  cases l with
  | nil => rfl
  | cons c cs =>
    unfold stripEnds
    rw [List.dropWhile_cons, hh c rfl]
    simp only [Bool.false_eq_true, if_false]
    cases hrev : (c :: cs).reverse with
    | nil => exact absurd hrev (by simp)
    | cons d r =>
      have hd : (c :: cs).getLast? = some d := by
        rw [← List.head?_reverse, hrev]
        rfl
      rw [List.dropWhile_cons, hl d hd]
      simp only [Bool.false_eq_true, if_false]
      rw [← hrev, List.reverse_reverse]

theorem jsonLoadsL_dumps (v : JVal) : jsonLoadsL (jsonDumps4 v) = .ok v := by
  unfold jsonLoadsL jsonDumps4
  have hstrip : stripEnds isJsonWs (serVal 0 v) = serVal 0 v := by
    apply stripEnds_eq_self
    · intro c h
      obtain ⟨c0, cs0, hc0, hws0, _⟩ := serVal_head 0 v
      rw [hc0] at h
      simp at h
      rw [h] at hws0
      exact hws0
    · intro c h
      obtain ⟨c0, hc0, hws0⟩ := serVal_last 0 v
      rw [hc0] at h
      cases h
      exact hws0
  simp only [hstrip]
  have hfuel : jfuel v ≤ 2 * (serVal 0 v).length + 2 := by
    have := jfuel_le v 0
    omega
  have hmain := pValue_ser v 0 (2 * (serVal 0 v).length + 2) [] []
    hfuel wsJ_nil restSafe_nil
  simp only [List.nil_append, List.append_nil] at hmain
  rw [hmain]
  simp

/-! ## YAML dump-then-load lemmas -/

theorem isDigit_ne_char (c x : Char) (h : c.isDigit = true)
    (hx : x.isDigit = false) : ¬ c = x := by
  intro he
  rw [he] at h
  rw [h] at hx
  exact absurd hx (by decide)

theorem isAlpha_ne_char (c x : Char) (h : c.isAlpha = true)
    (hx : x.isAlpha = false) : ¬ c = x := by
  intro he
  rw [he] at h
  rw [h] at hx
  exact absurd hx (by decide)

theorem alpha_not_pyws (c : Char) (h : c.isAlpha = true) :
    isPyWs c = false := by
  cases hp : isPyWs c with
  | false => rfl
  | true =>
    exfalso
    simp only [isPyWs, Bool.or_eq_true, decide_eq_true_eq] at hp
    rcases hp with ((((h1 | h1) | h1) | h1) | h1) | h1 <;>
      (rw [h1] at h; exact absurd h (by decide))

theorem keyCharOk_ne_colon (c : Char) (h : keyCharOk c = true) : ¬ c = ':' := by
  intro he
  rw [he] at h
  exact absurd h (by decide)

theorem keyCharOk_ne_nl (c : Char) (h : keyCharOk c = true) : ¬ c = '\n' := by
  intro he
  rw [he] at h
  exact absurd h (by decide)

theorem plainCharOk_ne_nl (c : Char) (h : plainCharOk c = true) :
    ¬ c = '\n' := by
  intro he
  rw [he] at h
  exact absurd h (by decide)

theorem splitLines_append (line rest : List Char)
    (h : ∀ c ∈ line, ¬ c = '\n') :
    splitLines (line ++ '\n' :: rest) = line :: splitLines rest := by
  induction line with
  | nil =>
    show splitLines ('\n' :: rest) = [] :: splitLines rest
    simp only [splitLines]
    simp
  | cons c cs ih =>
    have hc : ¬ c = '\n' := h c (List.mem_cons_self c cs)
    have ihr := ih (fun d hd => h d (List.mem_cons_of_mem c hd))
    show splitLines (c :: (cs ++ '\n' :: rest)) = (c :: cs) :: splitLines rest
    simp only [splitLines]
    rw [if_neg hc, ihr]

theorem splitColon_append (k rest : List Char)
    (h : ∀ c ∈ k, ¬ c = ':') :
    splitColon (k ++ ':' :: rest) = some (k, rest) := by
  induction k with
  | nil =>
    show splitColon (':' :: rest) = some ([], rest)
    simp only [splitColon]
    simp
  | cons c cs ih =>
    have hc : ¬ c = ':' := h c (List.mem_cons_self c cs)
    have ihr := ih (fun d hd => h d (List.mem_cons_of_mem c hd))
    show splitColon (c :: (cs ++ ':' :: rest)) = some (c :: cs, rest)
    simp only [splitColon]
    rw [if_neg hc, ihr]

theorem trimSpaces_dumpScalarY (v : YVal) (hv : valSafe v = true) :
    trimSpaces (dumpScalarY v) = dumpScalarY v := by
  cases v with
  | int n =>
    show trimSpaces (natRepr n) = natRepr n
    apply stripEnds_eq_self
    · intro c hc
      cases hr : natRepr n with
      | nil => exact absurd hr (natRepr_ne_nil n)
      | cons d ds =>
        rw [hr] at hc
        simp only [List.head?_cons, Option.some.injEq] at hc
        have hd : d.isDigit = true := by
          have := natRepr_all_digit n
          rw [hr] at this
          exact (List.all_eq_true.mp this d (List.mem_cons_self d ds))
        rw [← hc]
        simp only [decide_eq_false_iff_not]
        exact isDigit_ne_char d ' ' hd (by decide)
    · intro c hc
      obtain ⟨d, hd, hdd⟩ := natRepr_last_digit n
      rw [hd] at hc
      cases hc
      simp only [decide_eq_false_iff_not]
      exact isDigit_ne_char c ' ' hdd (by decide)
  | str s =>
    cases s with
    | nil => exact absurd hv (by decide)
    | cons c cs =>
      simp only [valSafe, Bool.and_eq_true] at hv
      show trimSpaces (c :: cs) = c :: cs
      apply stripEnds_eq_self
      · intro d hd
        simp only [List.head?_cons, Option.some.injEq] at hd
        rw [← hd]
        simp only [decide_eq_false_iff_not]
        exact isAlpha_ne_char c ' ' hv.1.1 (by decide)
      · intro d hd
        have hlast := hv.2
        rw [hd] at hlast
        simp only [ne_eq, decide_not] at hlast
        simp only [decide_eq_false_iff_not]
        intro he
        rw [he] at hlast
        exact absurd hlast (by decide)

theorem parseScalarY_dump (v : YVal) (hv : valSafe v = true) :
    parseScalarY (dumpScalarY v) = .ok v := by
  cases v with
  | int n =>
    show parseScalarY (natRepr n) = .ok (.int n)
    by_cases h10 : n < 10
    · have hr : natRepr n = [digitChar n] := by
        simp [natRepr, natToDigits, h10]
      have hd : (digitChar n).isDigit = true := digitChar_isDigit n h10
      rw [hr]
      simp only [parseScalarY]
      rw [if_neg (isDigit_ne_char _ '"' hd (by decide))]
      have hall : ([digitChar n].all Char.isDigit) = true := by
        simp [hd]
      rw [if_pos hall]
      have hcond : (decide (digitChar n = '0') &&
          decide (([] : List Char) ≠ [])) = false := by
        simp
      simp only [hcond, Bool.false_eq_true, if_false]
      rw [← hr, digitsToNat_natRepr]
    · cases hr : natRepr n with
      | nil => exact absurd hr (natRepr_ne_nil n)
      | cons c cs =>
        have hall0 := natRepr_all_digit n
        rw [hr] at hall0
        have hd : c.isDigit = true :=
          List.all_eq_true.mp hall0 c (List.mem_cons_self c cs)
        have hnz : ¬ c = '0' :=
          natRepr_head_ne_zero n (by omega) c cs hr
        simp only [parseScalarY]
        rw [if_neg (isDigit_ne_char _ '"' hd (by decide))]
        rw [if_pos hall0]
        have hcond : (decide (c = '0') && decide (cs ≠ [])) = false := by
          simp [hnz]
        simp only [hcond, Bool.false_eq_true, if_false]
        rw [← hr, digitsToNat_natRepr]
  | str s =>
    cases s with
    | nil => exact absurd hv (by decide)
    | cons c cs =>
      simp only [valSafe, Bool.and_eq_true] at hv
      show parseScalarY (c :: cs) = .ok (.str (c :: cs))
      simp only [parseScalarY]
      rw [if_neg (isAlpha_ne_char c '"' hv.1.1 (by decide))]
      have hnd : ((c :: cs).all Char.isDigit) = false := by
        simp only [List.all_cons, Bool.and_eq_false_iff]
        exact Or.inl (isAlpha_not_digit c hv.1.1)
      rw [hnd]
      simp only [Bool.false_eq_true, if_false]
      have hok : (c.isAlpha && (c :: cs).all plainCharOk) = true := by
        rw [hv.1.1, hv.1.2]
        rfl
      rw [if_pos hok]

theorem parseLineY_dump (k : List Char) (v : YVal)
    (hk : keySafe k = true) (hv : valSafe v = true) :
    parseLineY (yamlLineBody (k, v)) = .ok (some (k, v)) := by
  cases k with
  | nil => exact absurd hk (by decide)
  | cons kc krest =>
    have hk2 := hk
    simp only [keySafe, Bool.and_eq_true] at hk2
    have hka : kc.isAlpha = true := hk2.1
    have hkall : ∀ c ∈ kc :: krest, keyCharOk c = true :=
      List.all_eq_true.mp hk2.2
    have hline : yamlLineBody (kc :: krest, v) =
        kc :: (krest ++ ':' :: ' ' :: dumpScalarY v) := by
      simp [yamlLineBody]
    have hws : wsOnly (kc :: (krest ++ ':' :: ' ' :: dumpScalarY v)) = false := by
      simp only [wsOnly, List.all_cons, Bool.and_eq_false_iff]
      exact Or.inl (alpha_not_pyws kc hka)
    have hsc : splitColon (kc :: (krest ++ ':' :: ' ' :: dumpScalarY v)) =
        some (kc :: krest, ' ' :: dumpScalarY v) := by
      rw [← List.cons_append]
      exact splitColon_append (kc :: krest) (' ' :: dumpScalarY v)
        (fun c hc => keyCharOk_ne_colon c (hkall c hc))
    rw [hline]
    simp only [parseLineY, hws, Bool.false_eq_true, if_false,
      alpha_not_pyws kc hka, hsc, hk, if_true,
      trimSpaces_dumpScalarY v hv, parseScalarY_dump v hv]

theorem yamlLineBody_no_nl (kv : List Char × YVal)
    (hkv : entrySafe kv = true) :
    ∀ c ∈ yamlLineBody kv, ¬ c = '\n' := by
  obtain ⟨k, v⟩ := kv
  simp only [entrySafe, Bool.and_eq_true] at hkv
  intro c hc
  simp only [yamlLineBody, List.mem_append, List.mem_cons] at hc
  rcases hc with hc | hc | hc | hc
  · cases k with
    | nil => exact absurd hc (List.not_mem_nil c)
    | cons kc krest =>
      have hk2 := hkv.1
      simp only [keySafe, Bool.and_eq_true] at hk2
      exact keyCharOk_ne_nl c (List.all_eq_true.mp hk2.2 c hc)
  · rw [hc]; decide
  · rw [hc]; decide
  · cases v with
    | int n =>
      have hd : c.isDigit = true := by
        have := natRepr_all_digit n
        exact List.all_eq_true.mp this c hc
      exact isDigit_ne_char c '\n' hd (by decide)
    | str s =>
      cases s with
      | nil => exact absurd hkv.2 (by decide)
      | cons sc srest =>
        have hv2 := hkv.2
        simp only [valSafe, Bool.and_eq_true] at hv2
        exact plainCharOk_ne_nl c (List.all_eq_true.mp hv2.1.2 c hc)

theorem splitLines_joinDumpY (d : List (List Char × YVal))
    (hd : d.all entrySafe = true) :
    splitLines (joinDumpY d) = d.map yamlLineBody ++ [[]] := by
  induction d with
  | nil => rfl
  | cons kv rest ih =>
    simp only [List.all_cons, Bool.and_eq_true] at hd
    have h1 : joinDumpY (kv :: rest) =
        yamlLineBody kv ++ '\n' :: joinDumpY rest := by
      simp [joinDumpY, dumpEntryY, yamlLineBody]
    rw [h1, splitLines_append _ _ (yamlLineBody_no_nl kv hd.1), ih hd.2]
    rfl

theorem parseLinesY_dump (d : List (List Char × YVal))
    (hd : d.all entrySafe = true) :
    parseLinesY (d.map yamlLineBody ++ [[]]) = .ok d := by
  induction d with
  | nil => rfl
  | cons kv rest ih =>
    obtain ⟨k, v⟩ := kv
    simp only [List.all_cons, Bool.and_eq_true] at hd
    have hkv := hd.1
    simp only [entrySafe, Bool.and_eq_true] at hkv
    show parseLinesY (yamlLineBody (k, v) :: (rest.map yamlLineBody ++ [[]])) =
      .ok ((k, v) :: rest)
    simp only [parseLinesY, parseLineY_dump k v hkv.1 hkv.2, ih hd.2]

theorem yamlLoadL_dumps (d : List (List Char × YVal))
    (hd : docSafe d = true) :
    yamlLoadL (yamlDumpL d) = .ok (sortEntriesY d) := by
  have hdall : d.all entrySafe = true := by
    cases d with
    | nil => exact absurd hd (by decide)
    | cons kv rest => exact hd
  have hperm : (sortEntriesY d).Perm d := List.perm_insertionSort entryLe d
  have hsall : (sortEntriesY d).all entrySafe = true := by
    rw [List.all_eq_true] at hdall ⊢
    intro x hx
    exact hdall x (hperm.mem_iff.mp hx)
  have hne : sortEntriesY d ≠ [] := by
    intro he
    have hlen := hperm.length_eq
    rw [he] at hlen
    cases d with
    | nil => exact absurd hd (by decide)
    | cons kv rest => exact absurd hlen.symm (by simp)
  show yamlLoadL (joinDumpY (sortEntriesY d)) = .ok (sortEntriesY d)
  unfold yamlLoadL
  rw [splitLines_joinDumpY _ hsall, parseLinesY_dump _ hsall]
  cases hs : sortEntriesY d with
  | nil => exact absurd hs hne
  | cons a as => rfl

/-- **C9.**  For every successfully validated record the persisted artifact
is the canonical re-serialization of the parsed value, so that
(a) re-parsing the persisted serialization yields the original parsed
record — exactly for JSON, and up to the stable key reordering for YAML
(a permutation of the entries, i.e. the same mapping; the YAML dump is
produced from the already-repaired, successfully parsed document, on which
the repair pass is a no-op) — and (b) the output depends only on the
parsed record, so repeated runs on unchanged input produce byte-identical
output files. -/
theorem claim9_canonical_roundtrip :
    (∀ (r dir fname : String) (f : SavedFile),
        save_response_as_json r dir fname = .ok f →
        ∃ v, jsonParseStage r = .ok v ∧ jsonLoads f.content = .ok v) ∧
    (∀ (r dir fname : String) (f : SavedFile)
        (doc : List (List Char × YVal)),
        yamlParseStage r = .ok doc → docSafe doc = true →
        save_response_as_yaml r dir fname = .ok f →
        yamlLoad f.content = .ok (sortEntriesY doc) ∧
          (sortEntriesY doc).Perm doc) ∧
    (∀ (r1 r2 dir fname : String),
        jsonParseStage r1 = jsonParseStage r2 →
        save_response_as_json r1 dir fname = save_response_as_json r2 dir fname) ∧
    (∀ (r1 r2 dir fname : String),
        yamlParseStage r1 = yamlParseStage r2 →
        save_response_as_yaml r1 dir fname = save_response_as_yaml r2 dir fname) := by
  refine ⟨?_, ?_, ?_, ?_⟩
  · intro r dir fname f hsave
    cases hp : jsonParseStage r with
    | error u =>
      have hs2 : save_response_as_json r dir fname = .error
          "Failed to decode response as JSON" := by
        unfold save_response_as_json
        rw [hp]
      rw [hs2] at hsave
      exact Except.noConfusion hsave
    | ok v =>
      have hs2 : save_response_as_json r dir fname =
          .ok ⟨dir ++ "/" ++ fname ++ ".json", String.mk (jsonDumps4 v)⟩ := by
        unfold save_response_as_json
        rw [hp]
      rw [hs2] at hsave
      injection hsave with hf
      refine ⟨v, rfl, ?_⟩
      rw [← hf]
      exact jsonLoadsL_dumps v
  · intro r dir fname f doc hp hdoc hsave
    have hs2 : save_response_as_yaml r dir fname =
        .ok ⟨dir ++ "/" ++ fname ++ ".yaml", String.mk (yamlDumpL doc)⟩ := by
      unfold save_response_as_yaml
      rw [hp]
    rw [hs2] at hsave
    injection hsave with hf
    constructor
    · rw [← hf]
      exact yamlLoadL_dumps doc hdoc
    · exact List.perm_insertionSort entryLe doc
  · intro r1 r2 dir fname h
    unfold save_response_as_json
    rw [h]
  · intro r1 r2 dir fname h
    unfold save_response_as_yaml
    rw [h]

/-- **C9, witness.**  The concrete JSON response `{"a": 1}` (with literal
braces) and the concrete YAML response `b: hello\na: 1\n`: the files the
pipeline writes for them re-parse to the parsed records (the YAML one with
its keys in sorted order, a permutation of the parse order), and re-running
on the same responses reproduces the same files. -/
theorem claim9_canonical_roundtrip_witness :
    (∃ v, jsonParseStage c9JsonResp = .ok v ∧
        jsonLoads c9JsonFile.content = .ok v) ∧
    (yamlLoad c9YamlFile.content = .ok (sortEntriesY c9YamlDoc) ∧
        (sortEntriesY c9YamlDoc).Perm c9YamlDoc) ∧
    save_response_as_json c9JsonResp "out" "doc" =
      save_response_as_json c9JsonResp "out" "doc" ∧
    save_response_as_yaml c9YamlResp "out" "doc" =
      save_response_as_yaml c9YamlResp "out" "doc" := by
  refine ⟨?_, ?_, ?_, ?_⟩
  · exact claim9_canonical_roundtrip.1 c9JsonResp "out" "doc" c9JsonFile rfl
  · exact claim9_canonical_roundtrip.2.1 c9YamlResp "out" "doc" c9YamlFile
      c9YamlDoc rfl (by decide) rfl
  · exact claim9_canonical_roundtrip.2.2.1 c9JsonResp c9JsonResp "out" "doc" rfl
  · exact claim9_canonical_roundtrip.2.2.2 c9YamlResp c9YamlResp "out" "doc" rfl

/-! ## Valid JSON payloads are untouched by backtick stripping (C1) -/

theorem ne_nil_of_getLast (l : List Char) (d : Char)
    (h : l.getLast? = some d) : l ≠ [] := by
  intro he
  rw [he] at h
  exact Option.noConfusion h

theorem getLast_cons_ne_nil (a : Char) (l : List Char) (h : l ≠ []) :
    (a :: l).getLast? = l.getLast? := by
  have h2 := List.getLast?_append_of_ne_nil [a] h
  simpa using h2

theorem consumedEnd_base (pre r : List Char) (d : Char)
    (hl : pre.getLast? = some d) (hd : ¬ d = btChar) :
    ConsumedEnd (pre ++ r) r :=
  ⟨pre, d, rfl, hl, hd⟩

theorem consumedEnd_cons (c : Char) {cs r : List Char}
    (h : ConsumedEnd cs r) : ConsumedEnd (c :: cs) r := by
  obtain ⟨pre, d, hpre, hl, hd⟩ := h
  refine ⟨c :: pre, d, by rw [hpre]; rfl, ?_, hd⟩
  rw [getLast_cons_ne_nil c pre (ne_nil_of_getLast pre d hl)]
  exact hl

theorem consumedEnd_append (a : List Char) {cs r : List Char}
    (h : ConsumedEnd cs r) : ConsumedEnd (a ++ cs) r := by
  obtain ⟨pre, d, hpre, hl, hd⟩ := h
  refine ⟨a ++ pre, d, by rw [hpre, List.append_assoc], ?_, hd⟩
  rw [List.getLast?_append_of_ne_nil a (ne_nil_of_getLast pre d hl)]
  exact hl

theorem consumedEnd_trans {a b c : List Char}
    (h1 : ConsumedEnd a b) (h2 : ConsumedEnd b c) : ConsumedEnd a c := by
  obtain ⟨p1, d1, hp1, hl1, hd1⟩ := h1
  obtain ⟨p2, d2, hp2, hl2, hd2⟩ := h2
  refine ⟨p1 ++ p2, d2, by rw [hp1, hp2, List.append_assoc], ?_, hd2⟩
  rw [List.getLast?_append_of_ne_nil p1 (ne_nil_of_getLast p2 d2 hl2)]
  exact hl2

theorem takeWhile_dropWhile_eq (q : Char → Bool) (l : List Char) :
    l = l.takeWhile q ++ l.dropWhile q :=
  (List.takeWhile_append_dropWhile q l).symm

theorem consumedEnd_of_dropWhile (l r : List Char) (x : Char)
    (hx : ¬ x = btChar)
    (h : l.dropWhile isJsonWs = x :: r) : ConsumedEnd l r := by
  have hsplit : l = l.takeWhile isJsonWs ++ (x :: r) := by
    conv_lhs => rw [takeWhile_dropWhile_eq isJsonWs l]
    rw [h]
  rw [hsplit]
  have h2 : l.takeWhile isJsonWs ++ (x :: r) =
      (l.takeWhile isJsonWs ++ [x]) ++ r := by
    simp
  rw [h2]
  exact consumedEnd_base _ r x (List.getLast?_concat _) hx

theorem consumedEnd_dispatch (cs rest r : List Char) (c : Char)
    (heq : cs.dropWhile isJsonWs = c :: rest)
    (h : ConsumedEnd (c :: rest) r) : ConsumedEnd cs r := by
  have hsplit : cs = cs.takeWhile isJsonWs ++ (c :: rest) := by
    conv_lhs => rw [takeWhile_dropWhile_eq isJsonWs cs]
    rw [heq]
  rw [hsplit]
  exact consumedEnd_append _ h

theorem pString_family_consumed : ∀ N : Nat, ∀ cs : List Char,
    cs.length ≤ N →
    (∀ s r, pString cs = .ok (s, r) → ConsumedEnd cs r) ∧
    (∀ s r, pEscape cs = .ok (s, r) → ConsumedEnd cs r) ∧
    (∀ n s r, pLowSurrogate n cs = .ok (s, r) → ConsumedEnd cs r) := by
  intro N
  induction N with
  | zero =>
    intro cs hlen
    have hnil : cs = [] := List.length_eq_zero.mp (Nat.le_zero.mp hlen)
    subst hnil
    refine ⟨?_, ?_, ?_⟩
    · intro s r h; exact absurd h (by simp [pString])
    · intro s r h; exact absurd h (by simp [pEscape])
    · intro n s r h; exact absurd h (by simp [pLowSurrogate])
  | succ N ih =>
    intro cs hlen
    refine ⟨?_, ?_, ?_⟩
    · intro s r h
      cases cs with
      | nil => exact absurd h (by simp [pString])
      | cons c rest =>
        have hrest : rest.length ≤ N := by
          simp only [List.length_cons] at hlen; omega
        simp only [pString] at h
        by_cases hq : c = '"'
        · rw [if_pos hq] at h
          subst hq
          simp only [Except.ok.injEq, Prod.mk.injEq] at h
          rw [← h.2]
          exact consumedEnd_base ['"'] rest '"' rfl (by decide)
        · rw [if_neg hq] at h
          by_cases hb : c = '\\'
          · rw [if_pos hb] at h
            subst hb
            exact consumedEnd_cons '\\' ((ih rest hrest).2.1 s r h)
          · rw [if_neg hb] at h
            by_cases hlt : c.toNat < 0x20
            · rw [if_pos hlt] at h
              exact absurd h (by simp)
            · rw [if_neg hlt] at h
              cases hps : pString rest with
              | error u => rw [hps] at h; exact absurd h (by simp)
              | ok pr =>
                obtain ⟨s2, r2⟩ := pr
                rw [hps] at h
                simp only [Except.ok.injEq, Prod.mk.injEq] at h
                rw [← h.2]
                exact consumedEnd_cons c ((ih rest hrest).1 s2 r2 hps)
    · intro s r h
      cases cs with
      | nil => exact absurd h (by simp [pEscape])
      | cons e rest2 =>
        have hrest2 : rest2.length ≤ N := by
          simp only [List.length_cons] at hlen; omega
        rw [pEscape.eq_def] at h
        split at h
        · exact absurd h (by simp)
        · rename_i rtail heqpat
          injection heqpat with he hr2
          subst he
          subst hr2
          cases rest2 with
          | nil => exact absurd h (by simp)
          | cons a r2a =>
            cases r2a with
            | nil => exact absurd h (by simp)
            | cons b r2b =>
              cases r2b with
              | nil => exact absurd h (by simp)
              | cons c2 r2c =>
                cases r2c with
                | nil => exact absurd h (by simp)
                | cons d rest3 =>
                  simp only [] at h
                  have hrest3 : rest3.length ≤ N := by
                    simp only [List.length_cons] at hrest2; omega
                  cases hxa : hexVal a with
                  | none => rw [hxa] at h; simp at h
                  | some va =>
                  rw [hxa] at h
                  cases hxb : hexVal b with
                  | none => rw [hxb] at h; simp at h
                  | some vb =>
                  rw [hxb] at h
                  cases hxc : hexVal c2 with
                  | none => rw [hxc] at h; simp at h
                  | some vc =>
                  rw [hxc] at h
                  cases hxd : hexVal d with
                  | none => rw [hxd] at h; simp at h
                  | some vd =>
                  rw [hxd] at h
                  simp only [] at h
                  by_cases hrange : (decide (hex4 va vb vc vd < 55296) ||
                      decide (57344 ≤ hex4 va vb vc vd)) = true
                  · rw [if_pos hrange] at h
                    cases hps : pString rest3 with
                    | error u => rw [hps] at h; simp at h
                    | ok pr =>
                      obtain ⟨s2, r2⟩ := pr
                      rw [hps] at h
                      simp only [Except.ok.injEq, Prod.mk.injEq] at h
                      rw [← h.2]
                      exact consumedEnd_cons 'u' (consumedEnd_cons a
                        (consumedEnd_cons b (consumedEnd_cons c2
                          (consumedEnd_cons d
                            ((ih rest3 hrest3).1 s2 r2 hps)))))
                  · rw [if_neg hrange] at h
                    by_cases hlow : hex4 va vb vc vd < 56320
                    · rw [if_pos hlow] at h
                      exact consumedEnd_cons 'u' (consumedEnd_cons a
                        (consumedEnd_cons b (consumedEnd_cons c2
                          (consumedEnd_cons d
                            ((ih rest3 hrest3).2.2 _ s r h)))))
                    · rw [if_neg hlow] at h
                      simp at h
        · rename_i e2 rtail hne heqpat
          injection heqpat with he hr2
          subst he
          subst hr2
          split at h
          · rename_i ch hch
            cases hps : pString rest2 with
            | error u => rw [hps] at h; simp at h
            | ok pr =>
              obtain ⟨s2, r2⟩ := pr
              rw [hps] at h
              simp only [Except.ok.injEq, Prod.mk.injEq] at h
              rw [← h.2]
              exact consumedEnd_cons e ((ih rest2 hrest2).1 s2 r2 hps)
          · simp at h
    · intro n s r h
      cases cs with
      | nil => exact absurd h (by simp [pLowSurrogate])
      | cons c0 rest0 =>
        rw [pLowSurrogate.eq_def] at h
        split at h
        · rename_i a b c2 d rest4 heqpat
          have hlen4 : rest4.length ≤ N := by
            have hc := congrArg List.length heqpat
            simp only [List.length_cons] at hc hlen
            omega
          cases hxa : hexVal a with
          | none => rw [hxa] at h; simp at h
          | some va =>
          rw [hxa] at h
          cases hxb : hexVal b with
          | none => rw [hxb] at h; simp at h
          | some vb =>
          rw [hxb] at h
          cases hxc : hexVal c2 with
          | none => rw [hxc] at h; simp at h
          | some vc =>
          rw [hxc] at h
          cases hxd : hexVal d with
          | none => rw [hxd] at h; simp at h
          | some vd =>
          rw [hxd] at h
          simp only [] at h
          by_cases hrange : (decide (56320 ≤ hex4 va vb vc vd) &&
              decide (hex4 va vb vc vd < 57344)) = true
          · rw [if_pos hrange] at h
            cases hps : pString rest4 with
            | error u => rw [hps] at h; simp at h
            | ok pr =>
              obtain ⟨s2, r2⟩ := pr
              rw [hps] at h
              simp only [Except.ok.injEq, Prod.mk.injEq] at h
              rw [← h.2, heqpat]
              exact consumedEnd_cons '\\' (consumedEnd_cons 'u'
                (consumedEnd_cons a (consumedEnd_cons b
                  (consumedEnd_cons c2 (consumedEnd_cons d
                    ((ih rest4 hlen4).1 s2 r2 hps))))))
          · rw [if_neg hrange] at h
            simp at h
        · simp at h

theorem pString_consumed (cs s r : List Char)
    (h : pString cs = .ok (s, r)) : ConsumedEnd cs r :=
  (pString_family_consumed cs.length cs (Nat.le_refl _)).1 s r h

theorem takeWhile_all (q : Char → Bool) (l : List Char) :
    ∀ c ∈ l.takeWhile q, q c = true := by
  induction l with
  | nil => intro c hc; exact absurd hc (List.not_mem_nil c)
  | cons a l ih =>
    intro c hc
    rw [List.takeWhile_cons] at hc
    by_cases hq : q a = true
    · rw [if_pos hq] at hc
      rcases List.mem_cons.mp hc with h1 | h1
      · rw [h1]; exact hq
      · exact ih c h1
    · rw [if_neg hq] at hc
      exact absurd hc (List.not_mem_nil c)

theorem isDigit_ne_bt (c : Char) (h : c.isDigit = true) : ¬ c = btChar := by
  intro he
  rw [he] at h
  exact absurd h (by decide)

theorem pNumber_consumed (cs : List Char) (n : Int) (r : List Char)
    (h : pNumber cs = .ok (n, r)) : ConsumedEnd cs r := by
  cases cs with
  | nil => exact absurd h (by simp [pNumber])
  | cons c rest =>
    simp only [pNumber] at h
    by_cases hm : c = '-'
    · rw [if_pos hm] at h
      subst hm
      by_cases hds : (rest.takeWhile Char.isDigit).isEmpty = true
      · rw [if_pos hds] at h
        exact absurd h (by simp)
      · rw [if_neg hds] at h
        simp only [Except.ok.injEq, Prod.mk.injEq] at h
        rw [← h.2]
        have hne : rest.takeWhile Char.isDigit ≠ [] := by
          intro he
          rw [List.isEmpty_iff] at hds
          exact hds he
        obtain ⟨dl, hdl⟩ : ∃ dl, (rest.takeWhile Char.isDigit).getLast? = some dl := by
          cases hg : (rest.takeWhile Char.isDigit).getLast? with
          | none => exact absurd (List.getLast?_eq_none_iff.mp hg) hne
          | some dl => exact ⟨dl, rfl⟩
        have hdig : dl.isDigit = true := by
          have hmem : dl ∈ rest.takeWhile Char.isDigit := by
            have h2 := List.getLast?_eq_getLast _ hne
            rw [h2] at hdl
            cases hdl
            exact List.getLast_mem hne
          exact takeWhile_all Char.isDigit rest dl hmem
        have hsplit : rest = rest.takeWhile Char.isDigit ++
            rest.dropWhile Char.isDigit := takeWhile_dropWhile_eq _ rest
        conv_lhs => rw [hsplit]
        exact consumedEnd_cons '-'
          (consumedEnd_base _ _ dl hdl (isDigit_ne_bt dl hdig))
    · rw [if_neg hm] at h
      by_cases hds : ((c :: rest).takeWhile Char.isDigit).isEmpty = true
      · rw [if_pos hds] at h
        exact absurd h (by simp)
      · rw [if_neg hds] at h
        simp only [Except.ok.injEq, Prod.mk.injEq] at h
        rw [← h.2]
        have hne : (c :: rest).takeWhile Char.isDigit ≠ [] := by
          intro he
          rw [List.isEmpty_iff] at hds
          exact hds he
        obtain ⟨dl, hdl⟩ : ∃ dl,
            ((c :: rest).takeWhile Char.isDigit).getLast? = some dl := by
          cases hg : ((c :: rest).takeWhile Char.isDigit).getLast? with
          | none => exact absurd (List.getLast?_eq_none_iff.mp hg) hne
          | some dl => exact ⟨dl, rfl⟩
        have hdig : dl.isDigit = true := by
          have hmem : dl ∈ (c :: rest).takeWhile Char.isDigit := by
            have h2 := List.getLast?_eq_getLast _ hne
            rw [h2] at hdl
            cases hdl
            exact List.getLast_mem hne
          exact takeWhile_all Char.isDigit (c :: rest) dl hmem
        have hsplit : c :: rest = (c :: rest).takeWhile Char.isDigit ++
            (c :: rest).dropWhile Char.isDigit := takeWhile_dropWhile_eq _ _
        conv_lhs => rw [hsplit]
        exact consumedEnd_base _ _ dl hdl (isDigit_ne_bt dl hdig)

mutual
theorem pValue_consumed : (fuel : Nat) → ∀ cs v r,
    pValue fuel cs = .ok (v, r) → ConsumedEnd cs r
  | 0 => by intro cs v r h; exact absurd h (by simp [pValue])
  | fuel + 1 => by
    intro cs v r h
    simp only [pValue] at h
    cases hdw : cs.dropWhile isJsonWs with
    | nil => rw [hdw] at h; simp at h
    | cons c rest =>
      rw [hdw] at h
      simp only [] at h
      by_cases hq : c = '"'
      · rw [if_pos hq] at h
        subst hq
        cases hps : pString rest with
        | error u => rw [hps] at h; simp at h
        | ok pr =>
          obtain ⟨s2, r2⟩ := pr
          rw [hps] at h
          simp only [Except.ok.injEq, Prod.mk.injEq] at h
          rw [← h.2]
          exact consumedEnd_dispatch cs rest r2 '"' hdw
            (consumedEnd_cons '"' (pString_consumed rest s2 r2 hps))
      · rw [if_neg hq] at h
        by_cases hlb : c = '['
        · rw [if_pos hlb] at h
          subst hlb
          split at h
          · rename_i r2 heq2
            simp only [Except.ok.injEq, Prod.mk.injEq] at h
            rw [← h.2]
            exact consumedEnd_dispatch cs rest r2 '[' hdw
              (consumedEnd_cons '['
                (consumedEnd_of_dropWhile rest r2 ']' (by decide) heq2))
          · rename_i cs2 hnot
            cases hpi : pItems fuel (rest.dropWhile isJsonWs) with
            | error u => rw [hpi] at h; simp at h
            | ok pr =>
              obtain ⟨xs, r1⟩ := pr
              rw [hpi] at h
              simp only [Except.ok.injEq, Prod.mk.injEq] at h
              rw [← h.2]
              have h2 : ConsumedEnd rest r1 := by
                rw [takeWhile_dropWhile_eq isJsonWs rest]
                exact consumedEnd_append _
                  (pItems_consumed fuel _ xs r1 hpi)
              exact consumedEnd_dispatch cs rest r1 '[' hdw
                (consumedEnd_cons '[' h2)
        · rw [if_neg hlb] at h
          by_cases hob : c = lbr
          · rw [if_pos hob] at h
            subst hob
            cases hdw2 : rest.dropWhile isJsonWs with
            | nil => rw [hdw2] at h; simp at h
            | cons x r2 =>
              rw [hdw2] at h
              simp only [] at h
              by_cases hx : x = rbr
              · rw [if_pos hx] at h
                subst hx
                simp only [Except.ok.injEq, Prod.mk.injEq] at h
                rw [← h.2]
                exact consumedEnd_dispatch cs rest r2 lbr hdw
                  (consumedEnd_cons lbr
                    (consumedEnd_of_dropWhile rest r2 rbr (by decide) hdw2))
              · rw [if_neg hx] at h
                cases hpm : pMembers fuel (x :: r2) with
                | error u => rw [hpm] at h; simp at h
                | ok pr =>
                  obtain ⟨ms, r1⟩ := pr
                  rw [hpm] at h
                  simp only [Except.ok.injEq, Prod.mk.injEq] at h
                  rw [← h.2]
                  have hrest : rest = rest.takeWhile isJsonWs ++ (x :: r2) := by
                    conv_lhs => rw [takeWhile_dropWhile_eq isJsonWs rest]
                    rw [hdw2]
                  have h2 : ConsumedEnd rest r1 := by
                    rw [hrest]
                    exact consumedEnd_append _
                      (pMembers_consumed fuel (x :: r2) ms r1 hpm)
                  exact consumedEnd_dispatch cs rest r1 lbr hdw
                    (consumedEnd_cons lbr h2)
          · rw [if_neg hob] at h
            by_cases ht : c = 't'
            · rw [if_pos ht] at h
              subst ht
              split at h
              · rename_i r2
                simp only [Except.ok.injEq, Prod.mk.injEq] at h
                rw [← h.2]
                exact consumedEnd_dispatch cs _ r2 't' hdw
                  (consumedEnd_base ['t', 'r', 'u', 'e'] r2 'e' rfl (by decide))
              · simp at h
            · rw [if_neg ht] at h
              by_cases hf : c = 'f'
              · rw [if_pos hf] at h
                subst hf
                split at h
                · rename_i r2
                  simp only [Except.ok.injEq, Prod.mk.injEq] at h
                  rw [← h.2]
                  exact consumedEnd_dispatch cs _ r2 'f' hdw
                    (consumedEnd_base ['f', 'a', 'l', 's', 'e'] r2 'e' rfl
                      (by decide))
                · simp at h
              · rw [if_neg hf] at h
                by_cases hn : c = 'n'
                · rw [if_pos hn] at h
                  subst hn
                  split at h
                  · rename_i r2
                    simp only [Except.ok.injEq, Prod.mk.injEq] at h
                    rw [← h.2]
                    exact consumedEnd_dispatch cs _ r2 'n' hdw
                      (consumedEnd_base ['n', 'u', 'l', 'l'] r2 'l' rfl
                        (by decide))
                  · simp at h
                · rw [if_neg hn] at h
                  by_cases hnum : (c = '-' || c.isDigit) = true
                  · rw [if_pos hnum] at h
                    cases hpn : pNumber (c :: rest) with
                    | error u => rw [hpn] at h; simp at h
                    | ok pr =>
                      obtain ⟨m, r1⟩ := pr
                      rw [hpn] at h
                      simp only [Except.ok.injEq, Prod.mk.injEq] at h
                      rw [← h.2]
                      exact consumedEnd_dispatch cs rest r1 c hdw
                        (pNumber_consumed (c :: rest) m r1 hpn)
                  · rw [if_neg hnum] at h
                    simp at h
theorem pItems_consumed : (fuel : Nat) → ∀ cs xs r,
    pItems fuel cs = .ok (xs, r) → ConsumedEnd cs r
  | 0 => by intro cs xs r h; exact absurd h (by simp [pItems])
  | fuel + 1 => by
    intro cs xs r h
    simp only [pItems] at h
    cases hpv : pValue fuel cs with
    | error u => rw [hpv] at h; simp at h
    | ok pr =>
      obtain ⟨v, r1⟩ := pr
      rw [hpv] at h
      simp only [] at h
      have hV : ConsumedEnd cs r1 := pValue_consumed fuel cs v r1 hpv
      split at h
      · rename_i r2 heq2
        cases hpi : pItems fuel r2 with
        | error u => rw [hpi] at h; simp at h
        | ok pr2 =>
          obtain ⟨ys, rr⟩ := pr2
          rw [hpi] at h
          simp only [Except.ok.injEq, Prod.mk.injEq] at h
          rw [← h.2]
          exact consumedEnd_trans
            (consumedEnd_trans hV
              (consumedEnd_of_dropWhile r1 r2 ',' (by decide) heq2))
            (pItems_consumed fuel r2 ys rr hpi)
      · rename_i r2 heq2
        simp only [Except.ok.injEq, Prod.mk.injEq] at h
        rw [← h.2]
        exact consumedEnd_trans hV
          (consumedEnd_of_dropWhile r1 r2 ']' (by decide) heq2)
      · simp at h
theorem pMembers_consumed : (fuel : Nat) → ∀ cs ms r,
    pMembers fuel cs = .ok (ms, r) → ConsumedEnd cs r
  | 0 => by intro cs ms r h; exact absurd h (by simp [pMembers])
  | fuel + 1 => by
    intro cs ms r h
    simp only [pMembers] at h
    split at h
    · rename_i r0 heq0
      cases hpk : pString r0 with
      | error u => rw [hpk] at h; simp at h
      | ok pr =>
        obtain ⟨k, r1⟩ := pr
        rw [hpk] at h
        simp only [] at h
        have hA : ConsumedEnd cs r1 :=
          consumedEnd_dispatch cs r0 r1 '"' heq0
            (consumedEnd_cons '"' (pString_consumed r0 k r1 hpk))
        split at h
        · rename_i r2 heq1
          cases hpv : pValue fuel r2 with
          | error u => rw [hpv] at h; simp at h
          | ok pr2 =>
            obtain ⟨v, r3⟩ := pr2
            rw [hpv] at h
            simp only [] at h
            have hB : ConsumedEnd cs r3 :=
              consumedEnd_trans
                (consumedEnd_trans hA
                  (consumedEnd_of_dropWhile r1 r2 ':' (by decide) heq1))
                (pValue_consumed fuel r2 v r3 hpv)
            split at h
            · rename_i r4 heq3
              cases hpm : pMembers fuel r4 with
              | error u => rw [hpm] at h; simp at h
              | ok pr3 =>
                obtain ⟨ns, rr⟩ := pr3
                rw [hpm] at h
                simp only [Except.ok.injEq, Prod.mk.injEq] at h
                rw [← h.2]
                exact consumedEnd_trans
                  (consumedEnd_trans hB
                    (consumedEnd_of_dropWhile r3 r4 ',' (by decide) heq3))
                  (pMembers_consumed fuel r4 ns rr hpm)
            · rename_i x r4 hnot heq3
              by_cases hx : x = rbr
              · rw [if_pos hx] at h
                subst hx
                simp only [Except.ok.injEq, Prod.mk.injEq] at h
                rw [← h.2]
                exact consumedEnd_trans hB
                  (consumedEnd_of_dropWhile r3 r4 rbr (by decide) heq3)
              · rw [if_neg hx] at h
                simp at h
            · simp at h
        · simp at h
    · simp at h
end

theorem pValue_head_bt (fuel : Nat) (rest : List Char) :
    pValue fuel (btChar :: rest) = .error () := by
  cases fuel with
  | zero => rfl
  | succ f => rfl

theorem mem_of_getLast (l : List Char) (d : Char)
    (h : l.getLast? = some d) : d ∈ l := by
  have hne : l ≠ [] := ne_nil_of_getLast l d h
  rw [List.getLast?_eq_getLast l hne] at h
  cases h
  exact List.getLast_mem hne

theorem dropWhile_getLast (p : Char → Bool) (l : List Char) (d : Char)
    (hl : l.getLast? = some d) (hp : p d = false) :
    (l.dropWhile p).getLast? = some d := by
  have hne : l.dropWhile p ≠ [] := by
    intro he
    have hall := List.dropWhile_eq_nil_iff.mp he
    have := hall d (mem_of_getLast l d hl)
    rw [hp] at this
    exact absurd this (by decide)
  have hsplit : l = l.takeWhile p ++ l.dropWhile p := takeWhile_dropWhile_eq p l
  rw [hsplit, List.getLast?_append_of_ne_nil _ hne] at hl
  exact hl

theorem stripEnds_getLast (p : Char → Bool) (l : List Char) (d : Char)
    (hl : l.getLast? = some d) (hp : p d = false) :
    (stripEnds p l).getLast? = some d := by
  unfold stripEnds
  have h1 : (l.dropWhile p).getLast? = some d := dropWhile_getLast p l d hl hp
  have h2 : (l.dropWhile p).reverse.head? = some d := by
    rw [List.head?_reverse]
    exact h1
  cases hrev : (l.dropWhile p).reverse with
  | nil => rw [hrev] at h2; exact Option.noConfusion h2
  | cons x xs =>
    rw [hrev] at h2
    simp only [List.head?_cons, Option.some.injEq] at h2
    subst h2
    rw [List.dropWhile_cons, hp]
    simp only [Bool.false_eq_true, if_false]
    rw [List.getLast?_reverse]
    rfl

theorem contains_bt_false (c : Char) (h : ¬ c = btChar) :
    ([btChar].contains c) = false := by
  simp [List.contains, h]

theorem pyStrip_bt_of_valid (payload : List Char) (v : JVal)
    (h : jsonLoadsL payload = .ok v) :
    pyStripChars [btChar] payload = payload := by
  cases payload with
  | nil => rfl
  | cons c cs0 =>
    simp only [jsonLoadsL] at h
    cases hpv : pValue (2 * (stripEnds isJsonWs (c :: cs0)).length + 2)
        (stripEnds isJsonWs (c :: cs0)) with
    | error u => rw [hpv] at h; simp at h
    | ok pr =>
      obtain ⟨v2, rest⟩ := pr
      rw [hpv] at h
      simp only [] at h
      by_cases hr : rest = []
      · subst hr
        obtain ⟨pre, d, hpre, hlast, hdbt⟩ :=
          pValue_consumed _ _ v2 [] hpv
        rw [List.append_nil] at hpre
        show stripEnds (fun x => [btChar].contains x) (c :: cs0) = c :: cs0
        apply stripEnds_eq_self
        · intro x hx
          simp only [List.head?_cons, Option.some.injEq] at hx
          subst hx
          apply contains_bt_false
          intro hcbt
          by_cases hws : isJsonWs c = true
          · rw [hcbt] at hws
            exact absurd hws (by decide)
          · have hT := stripEnds_cons_head isJsonWs c cs0
              (Bool.not_eq_true _ ▸ hws)
            rw [hT, hcbt] at hpv
            rw [pValue_head_bt] at hpv
            exact Except.noConfusion hpv
        · intro x hx
          apply contains_bt_false
          intro hxbt
          by_cases hws : isJsonWs x = true
          · rw [hxbt] at hws
            exact absurd hws (by decide)
          · have hTlast : (stripEnds isJsonWs (c :: cs0)).getLast? = some x :=
              stripEnds_getLast isJsonWs (c :: cs0) x hx
                (Bool.not_eq_true _ ▸ hws)
            rw [hpre] at hTlast
            rw [hlast] at hTlast
            injection hTlast with hxd
            rw [hxd] at hdbt
            exact hdbt hxbt
      · rw [if_neg hr] at h
        exact absurd h (by simp)

/-- C1 (amended): for every payload that is valid JSON — backticks inside
JSON strings included — the bare form and the untagged fenced form
validate to the same record (a valid JSON payload never starts or ends
with a backtick, so `str.strip` of the backtick set never touches it),
while the fenced form tagged with a format name always fails validation:
the stripping removes fence characters only, never the format tag. -/
theorem claim1_amended_fence_stripping (p : String) (v : JVal)
    (hv : jsonLoads p = .ok v) :
    jsonParseStage p = .ok v ∧
    jsonParseStage (wrapUntagged p) = .ok v ∧
    jsonParseStage (wrapTaggedJson p) = .error () := by
  refine ⟨?_, ?_, ?_⟩
  · unfold jsonParseStage
    rw [pyStrip_bt_of_valid p.data v hv]
    exact hv
  · unfold jsonParseStage
    have hdata : (wrapUntagged p).data =
        [btChar, btChar, btChar] ++
          (('\n' :: p.data) ++ ('\n' :: [btChar, btChar, btChar])) := by
      simp [wrapUntagged, fence3, String.data_append]
    rw [hdata, pyStrip_bt_wrap_untagged]
    have hcongr : jsonLoadsL ('\n' :: (p.data ++ ['\n'])) = jsonLoadsL p.data := by
      apply jsonLoadsL_congr
      have h2 : ('\n' :: (p.data ++ ['\n'])) = ['\n'] ++ (p.data ++ ['\n']) := rfl
      rw [h2]
      exact stripEnds_outer_ws isJsonWs ['\n'] p.data ['\n']
        (by intro c hc; simp at hc; simp [hc, isJsonWs])
        (by intro c hc; simp at hc; simp [hc, isJsonWs])
    rw [hcongr]
    exact hv
  · unfold jsonParseStage
    have hdata : (wrapTaggedJson p).data =
        [btChar, btChar, btChar] ++
          (("json\n".data ++ p.data) ++ ('\n' :: [btChar, btChar, btChar])) := by
      simp [wrapTaggedJson, fence3, String.data_append]
    rw [hdata, pyStrip_bt_wrap_tagged]
    have hshape : "json\n".data ++ (p.data ++ ['\n']) =
        'j' :: ("son\n".data ++ (p.data ++ ['\n'])) := rfl
    rw [hshape]
    unfold jsonLoadsL
    rw [stripEnds_cons_head isJsonWs 'j' _ (by decide)]
    simp [pValue_head_j]

/-- Witness for the amended C1 at a payload holding a backtick inside a
JSON string (the backtick is not at either end, so stripping keeps it). -/
theorem claim1_amended_fence_stripping_witness :
    jsonParseStage (String.mk ['"', btChar, '"']) = .ok (.str [btChar]) ∧
    jsonParseStage (wrapUntagged (String.mk ['"', btChar, '"'])) =
      .ok (.str [btChar]) ∧
    jsonParseStage (wrapTaggedJson (String.mk ['"', btChar, '"'])) =
      .error () :=
  claim1_amended_fence_stripping (String.mk ['"', btChar, '"'])
    (.str [btChar]) rfl

